import Mathlib

/-! Greedy breadth-first colouring of a rectilinear lattice.

A shallow embedding of `src/main.cpp`: the compressed adjacency structure
`my_graph`, the lattice builder `generate_graph`, the feasibility test
`check` and the colouring loop `color_graph`.

Conventions of the embedding.

* A `std::vector<int>` is a `List Int`.
* The builder `generate_graph` computes in 32-bit `int` arithmetic: `wrap32` is
  the two's complement wrap-around, applied to every `int` operation and to the
  narrowing of `neighbours.size()` to `int`. A `reserve` whose `int` argument is
  negative receives a `size_t` above `max_size()` and throws `std::length_error`;
  the builder then returns `none`. Exhaustion of memory is not modelled.
* `lattice ni nj` is the lattice in exact arithmetic. `generate_graph_eq_lattice`
  shows that the builder returns it whenever `ni * nj * 4 ≤ 2^31 - 1`, the range
  in which no operation of the builder leaves the range of `int`; the statements
  about built lattices are made for this range.
* The colouring loop only copies and compares the `int` values of its graph and
  counts colours; its integers are unbounded.
* `v[k]` with an `int` index is `at? v k`; a read or write outside the vector
  has no defined behaviour in the source and yields `none` here.
* The `while (queue.size())` loop is `color_loop`, recursive on a step budget;
  `color_graph` supplies a budget that no run can exhaust (every dequeue either
  shortens the queue or marks a fresh vertex, and a vertex pushes at most
  `neighbours.size()` entries).
* `color_trace` is the same loop with two ghost records, the dequeued and the
  marked vertices in order; `export_cells` is the cell loop of `main`.
-/

namespace SgsTask

/-! ## Vectors indexed by `int` -/

/-- Read `v[k]`: defined only for `0 ≤ k < v.size()`. -/
def at? {α : Type} (v : List α) (k : Int) : Option α :=
  if 0 ≤ k then v[k.toNat]? else none

/-- Write `v[k] = x`: defined only for `0 ≤ k < v.size()`. -/
def set? {α : Type} (v : List α) (k : Int) (x : α) : Option (List α) :=
  if 0 ≤ k ∧ k.toNat < v.length then some (v.set k.toNat x) else none

/-- The call `v.resize(n, x)`: keeps the first `n` entries and pads with `x`. -/
def resize {α : Type} (v : List α) (n : Nat) (x : α) : List α :=
  v.take n ++ List.replicate (n - v.length) x

/-! ## The graph -/

/-- The struct `my_graph` (main.cpp lines 18-26). -/
structure my_graph where
  neighbours : List Int
  offset : List Int
deriving DecidableEq

/-- The method `my_graph::size()`: `offset.size() - 1`. -/
def my_graph.size (g : my_graph) : Nat := g.offset.length - 1

/-! ### 32-bit `int` arithmetic -/

/-- The value a 32-bit signed `int` holds after an operation whose exact result is `x`
(two's complement wrap-around). -/
def wrap32 (x : Int) : Int := (x + 2 ^ 31) % 2 ^ 32 - 2 ^ 31

/-- The capacity expression `ni*nj * 4 - 2 * (ni + nj)` of main.cpp line 32 evaluated in
32-bit `int` arithmetic, every operation wrapping. -/
def reserve_capacity32 (ni nj : Int) : Int :=
  wrap32 (wrap32 (wrap32 (ni * nj) * 4) - wrap32 (2 * wrap32 (ni + nj)))

/-- The exact value of the expression `ni*nj * 4 - 2 * (ni + nj)` of main.cpp line 32 on
unbounded integers: what the expression denotes when no operation overflows. -/
def reserve_capacity (ni nj : Int) : Int := ni * nj * 4 - 2 * (ni + nj)

/-! ### The builder -/

/-- Body of the inner loop of `generate_graph` (main.cpp lines 36-41) for row `i`,
column `j`, in 32-bit `int` arithmetic; `neighbours.size()` is narrowed to `int` when it
is stored in `offset`. -/
def generate_graph_body (ni nj : Int) (ans : my_graph) (i j : Int) : my_graph :=
  let offset := ans.offset ++ [wrap32 (ans.neighbours.length : Int)]
  let I := wrap32 (j + wrap32 (i * nj))
  let nb := ans.neighbours
  let nb := if j > 0 then nb ++ [wrap32 (I - 1)] else nb
  let nb := if j < wrap32 (nj - 1) then nb ++ [wrap32 (I + 1)] else nb
  let nb := if i < wrap32 (ni - 1) then nb ++ [wrap32 (I + nj)] else nb
  let nb := if i > 0 then nb ++ [wrap32 (I - nj)] else nb
  { neighbours := nb, offset := offset }

/-- The inner loop `for (int j = 0; j < nj; ++j)` of `generate_graph`. -/
def generate_graph_row (ni nj : Int) (ans : my_graph) (i : Int) : my_graph :=
  (List.range nj.toNat).foldl (fun acc (j : Nat) => generate_graph_body ni nj acc i (j : Int)) ans

/-- The function `generate_graph(ni, nj, ans)` (main.cpp lines 29-47); `ans` is the graph
passed by reference, to which the function appends. The two `reserve` calls of lines
31-32 receive an `int` converted to `size_t`: a negative value becomes a size above
`max_size()` and `reserve` throws `std::length_error`, which is the result `none`. -/
def generate_graph (ni nj : Int) (ans : my_graph) : Option my_graph :=
  if wrap32 (ni * nj) < 0 then none
  else if reserve_capacity32 ni nj < 0 then none
  else
    let ans := (List.range ni.toNat).foldl
      (fun acc (i : Nat) => generate_graph_row ni nj acc (i : Int)) ans
    some { neighbours := ans.neighbours,
           offset := ans.offset ++ [wrap32 (ans.neighbours.length : Int)] }

/-- The entries `neighbours[j], neighbours[j+1], ...` read by `n` rounds of the
loop `for (j = ...; j < ...; ++j) neighbours[j]`. -/
def range_loop (gr : my_graph) : Nat → Int → Option (List Int)
  | 0, _ => some []
  | n + 1, j =>
    match at? gr.neighbours j with
    | none => none
    | some k => (range_loop gr n (j + 1)).map (fun l => k :: l)

/-- The neighbour range of vertex `i`: the entries `neighbours[j]` for
`j = offset[i], ..., offset[i+1] - 1`, in that order (the loop header of
main.cpp lines 52, 88 and 165). -/
def neighbour_range (gr : my_graph) (i : Int) : Option (List Int) :=
  match at? gr.offset i, at? gr.offset (i + 1) with
  | some a, some b => range_loop gr (b - a).toNat a
  | _, _ => none

/-! ## The feasibility test -/

/-- The loop of `check` (main.cpp lines 52-57) with `n` rounds left, at position `j`. -/
def check_loop (gr : my_graph) (colors : List Int) (c : Int) : Nat → Int → Option Bool
  | 0, _ => some true
  | n + 1, j =>
    match at? gr.neighbours j with
    | none => none
    | some k =>
      match at? colors k with
      | none => none
      | some ck => if ck = c then some false else check_loop gr colors c n (j + 1)

/-- The function `check(i, c, gr, colors)` (main.cpp lines 50-59). -/
def check (i c : Int) (gr : my_graph) (colors : List Int) : Option Bool :=
  match at? gr.offset i, at? gr.offset (i + 1) with
  | some a, some b => check_loop gr colors c (b - a).toNat a
  | _, _ => none

/-! ## The colouring loop -/

/-- The local variables of `color_graph` that the work loop updates. -/
structure State where
  ans : List Int
  used : List Bool
  queue : List Int
  colors_used : Int
deriving DecidableEq

/-- The loop `for (int c = 0; c < colors_used; ++c)` (main.cpp lines 78-83) with
`n` rounds left, at candidate `c`: the first candidate that passes `check`. -/
def find_color (i : Int) (gr : my_graph) (ans : List Int) : Nat → Int → Option (Option Int)
  | 0, _ => some none
  | n + 1, c =>
    match check i c gr ans with
    | none => none
    | some true => some (some c)
    | some false => find_color i gr ans n (c + 1)

/-- The loop of main.cpp lines 88-92 with `n` rounds left, at position `j`:
pushes every neighbour that is not yet marked. -/
def push_loop (gr : my_graph) (used : List Bool) : Nat → Int → List Int → Option (List Int)
  | 0, _, queue => some queue
  | n + 1, j, queue =>
    match at? gr.neighbours j with
    | none => none
    | some k =>
      match at? used k with
      | none => none
      | some u => push_loop gr used n (j + 1) (if u then queue else queue ++ [k])

/-- One round of the work loop after `i` has been popped (main.cpp lines 73-92);
`st.queue` is the queue after the pop. -/
def color_iter (gr : my_graph) (i : Int) (st : State) : Option State :=
  match at? st.used i with
  | none => none
  | some true => some st
  | some false =>
    match set? st.used i true with
    | none => none
    | some used =>
      match find_color i gr st.ans st.colors_used.toNat 0 with
      | none => none
      | some found =>
        match (match found with
               | some c => set? st.ans i c
               | none => some st.ans) with
        | none => none
        | some ans1 =>
          match at? ans1 i with
          | none => none
          | some x =>
            match (if x < 0 then (set? ans1 i st.colors_used).map (fun a => (a, st.colors_used + 1))
                   else some (ans1, st.colors_used)) with
            | none => none
            | some (ans2, cu) =>
              match at? gr.offset i, at? gr.offset (i + 1) with
              | some a, some b =>
                (push_loop gr used (b - a).toNat a st.queue).map
                  (fun q => { ans := ans2, used := used, queue := q, colors_used := cu })
              | _, _ => none

/-- The loop `while (queue.size())` (main.cpp lines 70-93), at most `fuel` tests of
the loop condition. -/
def color_loop (gr : my_graph) : Nat → State → Option State
  | 0, _ => none
  | fuel + 1, st =>
    match st.queue with
    | [] => some st
    | i :: q =>
      match color_iter gr i { st with queue := q } with
      | none => none
      | some st1 => color_loop gr fuel st1

/-- The state in which `color_graph` enters its work loop (main.cpp lines 63-69). -/
def init_state (graph : my_graph) (ans : List Int) : State :=
  { ans := resize ans graph.size (-1)
    used := List.replicate graph.size false
    queue := [0]
    colors_used := 1 }

/-- The function `color_graph(graph, ans)` (main.cpp lines 61-96): the returned
colour count and the final content of `ans`. -/
def color_graph (graph : my_graph) (ans : List Int) : Option (Int × List Int) :=
  (color_loop graph (graph.size * (graph.neighbours.length + 1) + 2) (init_state graph ans)).map
    (fun st => (st.colors_used, st.ans))

/-! ## Definitions used by the statements and proofs -/

/-- The neighbour list the specification gives for the vertex at row `i`, column `j`:
left, right, down, up, each only when it exists. -/
def spec_group (ni nj i j : Int) : List Int :=
  (if j > 0 then [j + i * nj - 1] else []) ++ (if j < nj - 1 then [j + i * nj + 1] else []) ++
  (if i < ni - 1 then [j + i * nj + nj] else []) ++ (if i > 0 then [j + i * nj - nj] else [])

/-- The running lengths recorded before each group of `L`, starting from `s`. -/
def offs : Nat → List (List Int) → List Int
  | _, [] => []
  | s, l :: L => (s : Int) :: offs (s + l.length) L

/-- The compressed adjacency structure whose neighbour groups are the lists of `L`. -/
def csr (L : List (List Int)) : my_graph :=
  { neighbours := L.flatten, offset := offs 0 L ++ [(L.flatten.length : Int)] }

/-- The neighbour groups of the lattice in row-major order. -/
def lattice_groups (ni nj : Int) : List (List Int) :=
  (List.range ni.toNat).flatMap (fun (i : Nat) => (List.range nj.toNat).map (fun (j : Nat) => spec_group ni nj (i : Int) (j : Int)))

/-- The `ni × nj` lattice in exact arithmetic: the neighbour groups left, right, down, up
of every vertex in row-major order, in compressed form. It is not read off the code; it
is the graph that `generate_graph` is proved to return whenever `ni * nj * 4` fits an
`int` (`generate_graph_eq_lattice`). -/
def lattice (ni nj : Int) : my_graph := csr (lattice_groups ni nj)

/-- The neighbour range of `v` as a list; empty when the range cannot be read. -/
def adj (g : my_graph) (v : Int) : List Int := (neighbour_range g v).getD []

/-- A graph with `N ≥ 1` vertices all of whose neighbour ranges can be read and hold
vertex indices only. -/
def GraphOK (g : my_graph) (N : Nat) : Prop :=
  1 ≤ N ∧ g.offset.length = N + 1 ∧
    ∀ v : Int, 0 ≤ v → v < N → ∃ l, neighbour_range g v = some l ∧ ∀ k ∈ l, 0 ≤ k ∧ k < N

/-- The invariant of the work loop of `color_graph` on a graph with `N` vertices. -/
structure Inv (g : my_graph) (N : Nat) (st : State) : Prop where
  ans_len : st.ans.length = N
  used_len : st.used.length = N
  queue_bd : ∀ q ∈ st.queue, 0 ≤ q ∧ q < (N : Int)
  cu_pos : 1 ≤ st.colors_used
  unused : ∀ v, at? st.used v = some false → at? st.ans v = some (-1)
  colored : ∀ v, at? st.used v = some true → ∃ c, at? st.ans v = some c ∧ 0 ≤ c ∧ c < st.colors_used
  closed : ∀ v k, at? st.used v = some true → k ∈ adj g v → at? st.used k = some true ∨ k ∈ st.queue
  root : at? st.used 0 = some true ∨ (0 : Int) ∈ st.queue

/-- What one round of the work loop does to the state `st` whose queue is `i :: q`. -/
def StepSpec (g : my_graph) (i : Int) (q : List Int) (st st' : State) : Prop :=
  (at? st.used i = some true ∧ st' = { st with queue := q }) ∨
  (at? st.used i = some false ∧ ∃ c : Int,
    st'.ans = st.ans.set i.toNat c ∧
    st'.used = st.used.set i.toNat true ∧
    st'.queue = q ++ (adj g i).filter (fun k => decide (at? (st.used.set i.toNat true) k = some false)) ∧
    ((0 ≤ c ∧ c < st.colors_used ∧ st'.colors_used = st.colors_used) ∨
      (c = st.colors_used ∧ st'.colors_used = st.colors_used + 1)) ∧
    (∀ k ∈ adj g i, at? st.ans k ≠ some c) ∧
    (∀ c', 0 ≤ c' → c' < c → ∃ k ∈ adj g i, at? st.ans k = some c'))

/-- A bound on the rounds the work loop still needs: every unmarked vertex may push
all of `neighbours`, every queue entry costs one round. -/
def work_left (g : my_graph) (st : State) : Nat :=
  st.used.count false * (g.neighbours.length + 1) + st.queue.length

/-- Vertices reachable from vertex 0 along adjacency entries. -/
inductive Reach (g : my_graph) : Int → Prop
  | root : Reach g 0
  | step {v k : Int} : Reach g v → k ∈ adj g v → Reach g k

/-- No two marked vertices joined by an adjacency entry hold the same colour. -/
def ProperSt (g : my_graph) (st : State) : Prop :=
  ∀ v k, at? st.used v = some true → at? st.used k = some true → k ∈ adj g v →
    at? st.ans v ≠ at? st.ans k

/-- Adjacency is symmetric. -/
def SymmetricGraph (g : my_graph) (N : Nat) : Prop :=
  ∀ v k : Int, 0 ≤ v → v < N → k ∈ adj g v → v ∈ adj g k

/-- No vertex is its own neighbour. -/
def LoopFree (g : my_graph) (N : Nat) : Prop :=
  ∀ v : Int, 0 ≤ v → v < N → v ∉ adj g v

/-- Every vertex is reachable from vertex 0. -/
def Connected (g : my_graph) (N : Nat) : Prop :=
  ∀ v : Int, 0 ≤ v → v < N → Reach g v

/-- The well-formedness of a compressed adjacency structure with `N` vertices:
`offset` has `N + 1` entries, starts at 0, never decreases and ends at the length of
`neighbours`, and every neighbour entry is a vertex index. -/
def WellFormed (g : my_graph) (N : Nat) : Prop :=
  g.offset.length = N + 1 ∧ at? g.offset 0 = some 0 ∧
  (∀ v : Int, 0 ≤ v → v < N →
    ∃ x y, at? g.offset v = some x ∧ at? g.offset (v + 1) = some y ∧ x ≤ y) ∧
  at? g.offset N = some (g.neighbours.length : Int) ∧
  ∀ k ∈ g.neighbours, 0 ≤ k ∧ k < (N : Int)

/-- A two-colouring `p` of the graph with colours 0 and 1 that gives vertex 0 colour 0. -/
def TwoColouring (g : my_graph) (N : Nat) (p : Int → Int) : Prop :=
  p 0 = 0 ∧ (∀ v : Int, 0 ≤ v → v < N → p v = 0 ∨ p v = 1) ∧
    ∀ v k : Int, 0 ≤ v → v < N → k ∈ adj g v → p k ≠ p v

/-- The part of the loop invariant that ties the colours to a two-colouring `p`. -/
def Bip (g : my_graph) (p : Int → Int) (st : State) : Prop :=
  (∀ v, at? st.used v = some true → at? st.ans v = some (p v)) ∧
  (st.colors_used = 1 ∨ st.colors_used = 2) ∧
  (st.colors_used = 1 → ∀ v, at? st.used v = some true → p v = 0) ∧
  (st.colors_used = 2 → ∃ v, at? st.used v = some true ∧ p v = 1) ∧
  (∀ q ∈ st.queue, q = 0 ∨ ∃ u ∈ adj g q, at? st.used u = some true)

/-- The checkerboard value of vertex `v` of a lattice with `nj` columns: row plus
column, modulo 2. -/
def parity (nj : Int) (v : Int) : Int := (v / nj + v % nj) % 2

/-- The number of vertices of the `ni × nj` lattice, as a length. -/
def lattice_size (ni nj : Int) : Nat := ni.toNat * nj.toNat

/-- The triangle on the vertices 0, 1, 2 in compressed adjacency form. -/
def triangle : my_graph := { neighbours := [1, 2, 0, 2, 0, 1], offset := [0, 2, 4, 6] }

/-! ## The export loop and ghost records of the work loop -/

/-- The cells that the loop of main.cpp lines 165-170 prints for vertex `i`: one pair
`(i, k)` for every entry `k` of the neighbour range of `i` with `i > k`. -/
def cells_of (g : my_graph) (i : Int) : Option (List (Int × Int)) :=
  (neighbour_range g i).map (fun l => (l.filter (fun k => decide (i > k))).map (fun k => (i, k)))

/-- The loop `for (int i = 0; i < (int)graph.size(); ++i)` of main.cpp line 164 with
`n` rounds left, at vertex `i`. -/
def cells_loop (g : my_graph) : Nat → Int → Option (List (Int × Int))
  | 0, _ => some []
  | n + 1, i =>
    match cells_of g i with
    | none => none
    | some c => (cells_loop g n (i + 1)).map (fun r => c ++ r)

/-- The cells that `main` prints (main.cpp lines 164-171), in order. -/
def export_cells (g : my_graph) : Option (List (Int × Int)) := cells_loop g g.size 0

/-- The number of cells that `main` announces in the `CELLS` and `CELL_TYPES` headers
(main.cpp lines 162 and 173). -/
def cells_announced (g : my_graph) : Nat := g.neighbours.length / 2

/-- The pairs printed for vertex `v`, read off its neighbour range. -/
def cells_at (g : my_graph) (v : Int) : List (Int × Int) :=
  ((adj g v).filter (fun k => decide (v > k))).map (fun k => (v, k))

/-- The ghost record of marked vertices after the round that dequeues `i` in state `st`. -/
def marks_after (st : State) (i : Int) (marks : List Int) : List Int :=
  if at? st.used i = some false then marks ++ [i] else marks

/-- The work loop of `color_graph` (main.cpp lines 70-93) with two ghost records that
the source does not keep: `pops`, the vertices dequeued so far, and `marks`, the vertices
marked used so far (line 76), both in order. The state is computed as in `color_loop`. -/
def color_trace (gr : my_graph) :
    Nat → State → List Int → List Int → Option (State × List Int × List Int)
  | 0, _, _, _ => none
  | fuel + 1, st, pops, marks =>
    match st.queue with
    | [] => some (st, pops, marks)
    | i :: q =>
      match color_iter gr i { st with queue := q } with
      | none => none
      | some st1 =>
        color_trace gr fuel st1 (pops ++ [i]) (marks_after st i marks)

/-- The run of `color_graph` on a fresh result array, with its ghost records. -/
def color_graph_trace (graph : my_graph) : Option (State × List Int × List Int) :=
  color_trace graph (graph.size * (graph.neighbours.length + 1) + 2) (init_state graph []) [] []

/-- The states that the work loop of `color_graph` passes through at its loop test,
starting from a fresh result array. -/
inductive Reachable (g : my_graph) : State → Prop
  | init : Reachable g (init_state g [])
  | step {st st1 : State} {i : Int} {q : List Int} : Reachable g st → st.queue = i :: q →
      color_iter g i { st with queue := q } = some st1 → Reachable g st1

/-- The ghost record `marks` lists, without repetition, exactly the vertices marked used. -/
def MarksOK (st : State) (marks : List Int) : Prop :=
  marks.Nodup ∧ ∀ v, v ∈ marks ↔ at? st.used v = some true

/-- The level of vertex `v` of a lattice with `nj` columns: row plus column. -/
def lattice_dist (nj v : Int) : Int := v / nj + v % nj

/-- The vertex `v` is the end of a walk of `n` adjacency entries that starts at vertex 0. -/
inductive WalkFrom0 (g : my_graph) : Nat → Int → Prop
  | zero : WalkFrom0 g 0 0
  | step {n : Nat} {v k : Int} : WalkFrom0 g n v → k ∈ adj g v → WalkFrom0 g (n + 1) k

/-- A level function of the graph: vertex 0 has level 0, adjacent vertices differ by one
level, and every other vertex has a neighbour one level below that lists it. -/
def LevelFn (g : my_graph) (N : Nat) (d : Int → Int) : Prop :=
  d 0 = 0 ∧
  (∀ v k : Int, 0 ≤ v → v < N → k ∈ adj g v → d k = d v + 1 ∨ d k + 1 = d v) ∧
  (∀ v : Int, 0 ≤ v → v < N → v ≠ 0 → ∃ u : Int, 0 ≤ u ∧ u < N ∧ v ∈ adj g u ∧ d u + 1 = d v)

/-- The breadth-first invariant of the work loop for a level function `d`. -/
def BfsOK (N : Nat) (d : Int → Int) (st : State) (marks : List Int) : Prop :=
  marks.Pairwise (fun u v => d u ≤ d v) ∧
  (∀ u ∈ marks, ∀ x ∈ st.queue, d u ≤ d x) ∧
  st.queue.Pairwise (fun a b => d a ≤ d b) ∧
  (∀ a ∈ st.queue, ∀ b ∈ st.queue, d b ≤ d a + 1) ∧
  (∀ q0 rest, st.queue = q0 :: rest →
    ∀ v : Int, 0 ≤ v → v < N → d v < d q0 → at? st.used v = some true) ∧
  ((marks = [] ∧ st.queue = [0]) ∨ marks.head? = some 0)

theorem at?_natCast {α : Type} (v : List α) (n : Nat) : at? v (n : Int) = v[n]? := by
  simp [at?]

theorem at?_some_bounds {α : Type} {v : List α} {k : Int} {x : α} (h : at? v k = some x) :
    0 ≤ k ∧ k < v.length := by
  unfold at? at h
  split_ifs at h with h0
  have := (List.getElem?_eq_some_iff.mp h).1
  omega

theorem offs_append (s : Nat) (L1 L2 : List (List Int)) :
    offs s (L1 ++ L2) = offs s L1 ++ offs (s + L1.flatten.length) L2 := by
  induction L1 generalizing s with
  | nil => simp [offs]
  | cons l L ih => simp [offs, ih, Nat.add_assoc]

theorem lattice_eq_csr (ni nj : Int) : lattice ni nj = csr (lattice_groups ni nj) := rfl

theorem offs_getElem? (s : Nat) (L : List (List Int)) (v : Nat) (hv : v ≤ L.length) :
    (offs s L ++ [((s + L.flatten.length : Nat) : Int)])[v]? =
      some ((s + (L.take v).flatten.length : Nat) : Int) := by
  induction L generalizing s v with
  | nil =>
    have : v = 0 := by simpa using hv
    subst this
    simp [offs]
  | cons l L ih =>
    cases v with
    | zero => simp [offs]
    | succ v =>
      have hv2 : v ≤ L.length := by simpa using hv
      have := ih (s + l.length) v hv2
      simp only [offs, List.cons_append, List.getElem?_cons_succ, List.flatten_cons,
        List.length_append, List.take_succ_cons] at this ⊢
      rw [← Nat.add_assoc, this, Nat.add_assoc]

theorem csr_offset (L : List (List Int)) (v : Nat) (hv : v ≤ L.length) :
    at? (csr L).offset (v : Int) = some (((L.take v).flatten.length : Nat) : Int) := by
  rw [at?_natCast]
  have := offs_getElem? 0 L v hv
  simpa [csr] using this

theorem csr_offset_length (L : List (List Int)) : (csr L).offset.length = L.length + 1 := by
  have : ∀ s, (offs s L).length = L.length := by
    induction L with
    | nil => intro s; rfl
    | cons l L ih => intro s; simp [offs, ih]
  simp [csr, this]

theorem range_loop_eq (g : my_graph) (n j : Nat) (h : j + n ≤ g.neighbours.length) :
    range_loop g n (j : Int) = some ((g.neighbours.drop j).take n) := by
  induction n generalizing j with
  | zero => simp [range_loop]
  | succ n ih =>
    have hj : j < g.neighbours.length := by omega
    have h2 := ih (j + 1) (by omega)
    have e : ((j : Int) + 1) = ((j + 1 : Nat) : Int) := by push_cast; rfl
    simp only [range_loop, at?_natCast, List.getElem?_eq_getElem hj, e, h2, Option.map_some']
    rw [List.drop_eq_getElem_cons hj, List.take_succ_cons]

theorem csr_range (L : List (List Int)) (v : Nat) (hv : v < L.length) :
    neighbour_range (csr L) (v : Int) = some L[v] := by
  have e : ((v : Int) + 1) = ((v + 1 : Nat) : Int) := by push_cast; rfl
  unfold neighbour_range
  rw [e, csr_offset L v (by omega), csr_offset L (v + 1) (by omega)]
  simp only
  have hsplit : L = L.take v ++ L[v] :: L.drop (v + 1) := by
    rw [← List.drop_eq_getElem_cons hv, List.take_append_drop]
  have h1 : (L.take (v + 1)).flatten.length = (L.take v).flatten.length + L[v].length := by
    rw [List.take_succ, List.getElem?_eq_getElem hv]
    simp only [Option.toList, List.flatten_append, List.length_append, List.flatten_cons,
      List.flatten_nil, List.append_nil]
  have h2 : (csr L).neighbours = (L.take v).flatten ++ (L[v] ++ (L.drop (v + 1)).flatten) := by
    show L.flatten = _
    conv_lhs => rw [hsplit]
    simp only [List.flatten_append, List.flatten_cons]
  have h3 : ((((L.take (v + 1)).flatten.length : Nat) : Int) - (((L.take v).flatten.length : Nat) : Int)).toNat
      = L[v].length := by
    rw [h1]; omega
  rw [h3, range_loop_eq]
  · rw [h2, List.drop_left, List.take_left]
  · rw [h2]; simp

theorem flatMap_range_getElem? {α : Type} (f : Nat → Nat → α) (a b i j : Nat) (hi : i < a) (hj : j < b) :
    ((List.range a).flatMap (fun i => (List.range b).map (fun j => f i j)))[i * b + j]? = some (f i j) := by
  induction a with
  | zero => omega
  | succ a ih =>
    have hlen : ((List.range a).flatMap (fun i => (List.range b).map (fun j => f i j))).length = a * b := by
      clear ih hi
      induction a with
      | zero => simp
      | succ a ih => simp [List.range_succ, List.flatMap_append, ih, Nat.succ_mul]
    rw [List.range_succ, List.flatMap_append]
    by_cases h : i < a
    · have : i * b + j < a * b := by
        have : (i + 1) * b ≤ a * b := Nat.mul_le_mul_right b h
        rw [Nat.succ_mul] at this
        omega
      rw [List.getElem?_append_left (by rw [hlen]; exact this)]
      exact ih h
    · have hia : i = a := by omega
      subst hia
      rw [List.getElem?_append_right (by rw [hlen]; omega), hlen]
      simp [hj]

theorem flatMap_range_length {α : Type} (f : Nat → Nat → α) (a b : Nat) :
    ((List.range a).flatMap (fun i => (List.range b).map (fun j => f i j))).length = a * b := by
  induction a with
  | zero => simp
  | succ a ih => simp [List.range_succ, List.flatMap_append, ih, Nat.succ_mul]

theorem coords_unique (n i j i' j' : Int) (hj : 0 ≤ j) (hjn : j < n) (hj' : 0 ≤ j') (hjn' : j' < n)
    (h : j + i * n = j' + i' * n) : i = i' ∧ j = j' := by
  have e1 : (j + i * n) % n = j := by
    rw [Int.add_mul_emod_self, Int.emod_eq_of_lt hj hjn]
  have e2 : (j' + i' * n) % n = j' := by
    rw [Int.add_mul_emod_self, Int.emod_eq_of_lt hj' hjn']
  have hjj : j = j' := by rw [← e1, h, e2]
  subst hjj
  have hn : n ≠ 0 := by omega
  have : i * n = i' * n := by omega
  exact ⟨mul_right_cancel₀ hn this, rfl⟩

/-- Every vertex index below `ni * nj` is `j + i * nj` for a row `i` and a column `j`. -/
theorem vertex_coords (ni nj v : Int) (hv0 : 0 ≤ v) (hv : v < ni * nj) (hnj : 1 ≤ nj) :
    ∃ i j : Int, 0 ≤ i ∧ i < ni ∧ 0 ≤ j ∧ j < nj ∧ v = j + i * nj := by
  refine ⟨v / nj, v % nj, Int.ediv_nonneg hv0 (by omega), ?_, Int.emod_nonneg v (by omega),
    Int.emod_lt_of_pos v (by omega), ?_⟩
  · exact Int.ediv_lt_of_lt_mul (by omega) hv
  · have := Int.emod_add_ediv v nj
    rw [mul_comm] at this
    omega

theorem row_bounds (ni nj i : Int) (hi0 : 0 ≤ i) (hi : i < ni) (hnj : 0 ≤ nj) :
    0 ≤ i * nj ∧ i * nj + nj ≤ ni * nj := by
  constructor
  · exact Int.mul_nonneg hi0 hnj
  · have : (i + 1) * nj ≤ ni * nj := Int.mul_le_mul_of_nonneg_right (by omega) hnj
    rw [Int.add_mul] at this
    omega

theorem lattice_groups_length (ni nj : Int) :
    (lattice_groups ni nj).length = ni.toNat * nj.toNat := by
  unfold lattice_groups
  exact flatMap_range_length (fun i j => spec_group ni nj (i : Int) (j : Int)) _ _

/-- The neighbour range of the vertex at row `i`, column `j` of the lattice. -/
theorem lattice_range (ni nj i j : Int) (hi0 : 0 ≤ i) (hi : i < ni) (hj0 : 0 ≤ j) (hj : j < nj) :
    neighbour_range (lattice ni nj) (j + i * nj) = some (spec_group ni nj i j) := by
  obtain ⟨a, rfl⟩ := Int.eq_ofNat_of_zero_le (show 0 ≤ ni by omega)
  obtain ⟨b, rfl⟩ := Int.eq_ofNat_of_zero_le (show 0 ≤ nj by omega)
  obtain ⟨i, rfl⟩ := Int.eq_ofNat_of_zero_le hi0
  obtain ⟨j, rfl⟩ := Int.eq_ofNat_of_zero_le hj0
  have hi' : i < a := by omega
  have hj' : j < b := by omega
  have hg : (lattice_groups (a : Int) (b : Int))[i * b + j]? = some (spec_group a b i j) := by
    unfold lattice_groups
    simp only [Int.toNat_ofNat]
    exact flatMap_range_getElem? (fun i j => spec_group (a : Int) (b : Int) (i : Int) (j : Int)) a b i j hi' hj'
  obtain ⟨hlt, hget⟩ := List.getElem?_eq_some_iff.mp hg
  have e : ((j : Int) + (i : Int) * (b : Int)) = ((i * b + j : Nat) : Int) := by push_cast; ring
  rw [lattice_eq_csr, e, csr_range _ _ hlt, hget]

theorem mem_spec_group (ni nj i j k : Int) :
    k ∈ spec_group ni nj i j ↔
      (0 < j ∧ k = j + i * nj - 1) ∨ (j < nj - 1 ∧ k = j + i * nj + 1) ∨
      (i < ni - 1 ∧ k = j + i * nj + nj) ∨ (0 < i ∧ k = j + i * nj - nj) := by
  have key : ∀ (p : Prop) [Decidable p] (x : Int), k ∈ (if p then [x] else []) ↔ p ∧ k = x := by
    intro p _ x
    by_cases hp : p <;> simp [hp]
  unfold spec_group
  simp only [List.mem_append, key, or_assoc, gt_iff_lt]

theorem spec_group_nodup (ni nj i j : Int) (hj0 : 0 ≤ j) (hj : j < nj) :
    (spec_group ni nj i j).Nodup := by
  unfold spec_group
  split_ifs <;> simp <;> omega

theorem spec_group_bounds (ni nj i j k : Int) (hi0 : 0 ≤ i) (hi : i < ni) (hj0 : 0 ≤ j) (hj : j < nj)
    (hk : k ∈ spec_group ni nj i j) : 0 ≤ k ∧ k < ni * nj ∧ k ≠ j + i * nj := by
  obtain ⟨h1, h2⟩ := row_bounds ni nj i hi0 hi (by omega)
  rw [mem_spec_group] at hk
  have h3 : i + 1 < ni → i * nj + nj + nj ≤ ni * nj := by
    intro h
    have := (row_bounds ni nj (i + 1) (by omega) h (by omega)).2
    rw [Int.add_mul] at this
    omega
  have h4 : 0 < i → 0 ≤ i * nj - nj := by
    intro h
    have := (row_bounds ni nj (i - 1) (by omega) (by omega) (by omega)).1
    rw [Int.sub_mul] at this
    omega
  rcases hk with ⟨h, rfl⟩ | ⟨h, rfl⟩ | ⟨h, rfl⟩ | ⟨h, rfl⟩
  · omega
  · omega
  · have := h3 (by omega); omega
  · have := h4 h; omega

/-- Adjacency in the lattice, in coordinates. -/
theorem mem_spec_group_coords (ni nj i j i' j' : Int) (hi : i < ni) (hj0 : 0 ≤ j)
    (hj : j < nj) (hi0' : 0 ≤ i') (hj0' : 0 ≤ j') (hj' : j' < nj) :
    (j' + i' * nj) ∈ spec_group ni nj i j ↔
      (i' = i ∧ (j' + 1 = j ∨ j' = j + 1)) ∨ (j' = j ∧ (i' = i + 1 ∧ i' < ni ∨ i' + 1 = i)) := by
  rw [mem_spec_group]
  constructor
  · rintro (⟨h, e⟩ | ⟨h, e⟩ | ⟨h, e⟩ | ⟨h, e⟩)
    · have := coords_unique nj i' j' i (j - 1) hj0' hj' (by omega) (by omega) (by rw [e]; ring)
      omega
    · have := coords_unique nj i' j' i (j + 1) hj0' hj' (by omega) (by omega) (by rw [e]; ring)
      omega
    · have := coords_unique nj i' j' (i + 1) j hj0' hj' (by omega) (by omega) (by rw [e]; ring)
      omega
    · have := coords_unique nj i' j' (i - 1) j hj0' hj' (by omega) (by omega) (by rw [e]; ring)
      omega
  · rintro (⟨rfl, h | h⟩ | ⟨rfl, h | h⟩)
    · left; constructor <;> omega
    · right; left; constructor <;> omega
    · right; right; left
      obtain ⟨rfl, h⟩ := h
      exact ⟨by omega, by ring⟩
    · right; right; right
      have : i' = i - 1 := by omega
      subst this
      exact ⟨by omega, by ring⟩

theorem at?_of_bounds {α : Type} (v : List α) (k : Int) (h0 : 0 ≤ k) (h : k < v.length) :
    ∃ x, at? v k = some x := by
  unfold at?
  rw [if_pos h0]
  have hlt : k.toNat < v.length := by omega
  exact ⟨v[k.toNat], List.getElem?_eq_getElem hlt⟩

theorem set?_of_bounds {α : Type} (v : List α) (k : Int) (x : α) (h0 : 0 ≤ k) (h : k < v.length) :
    set? v k x = some (v.set k.toNat x) := by
  unfold set?
  rw [if_pos ⟨h0, by omega⟩]

theorem at?_set {α : Type} (v : List α) (k k' : Int) (x : α) (h0 : 0 ≤ k) (h : k < v.length) :
    at? (v.set k.toNat x) k' = if k' = k then some x else at? v k' := by
  unfold at?
  by_cases hk : 0 ≤ k'
  · rw [if_pos hk, if_pos hk, List.getElem?_set]
    by_cases e : k' = k
    · subst e
      rw [if_pos rfl, if_pos rfl, if_pos (by omega)]
    · rw [if_neg e, if_neg (by omega)]
  · rw [if_neg hk, if_neg hk, if_neg (by omega)]

theorem at?_replicate {α : Type} (n : Nat) (x y : α) (k : Int) (h : at? (List.replicate n x) k = some y) :
    y = x := by
  unfold at? at h
  split_ifs at h
  rw [List.getElem?_replicate] at h
  split_ifs at h
  exact (Option.some.inj h).symm

theorem neighbour_range_some {g : my_graph} {i : Int} {l : List Int} (h : neighbour_range g i = some l) :
    ∃ a b, at? g.offset i = some a ∧ at? g.offset (i + 1) = some b ∧
      range_loop g (b - a).toNat a = some l := by
  unfold neighbour_range at h
  split at h
  · next a b ha hb => exact ⟨a, b, ha, hb, h⟩
  · exact absurd h (by simp)

theorem range_loop_length (g : my_graph) (n : Nat) (j : Int) (l : List Int)
    (h : range_loop g n j = some l) : l.length = n ∧ (0 < n → 0 ≤ j ∧ j + n ≤ g.neighbours.length) := by
  induction n generalizing j l with
  | zero =>
    simp only [range_loop, Option.some.injEq] at h
    subst h
    simp
  | succ n ih =>
    simp only [range_loop] at h
    split at h
    · exact absurd h (by simp)
    · next k hk =>
      cases hr : range_loop g n (j + 1) with
      | none => rw [hr] at h; exact absurd h (by simp)
      | some l' =>
        rw [hr] at h
        simp only [Option.map_some', Option.some.injEq] at h
        subst h
        obtain ⟨h1, h2⟩ := ih (j + 1) l' hr
        have hb := at?_some_bounds hk
        refine ⟨by simp [h1], fun _ => ⟨hb.1, ?_⟩⟩
        by_cases hn : 0 < n
        · have := (h2 hn).2
          push_cast
          omega
        · have : n = 0 := by omega
          subst this
          push_cast
          omega

theorem range_loop_mem (g : my_graph) (n : Nat) (j : Int) (l : List Int)
    (h : range_loop g n j = some l) : ∀ k ∈ l, k ∈ g.neighbours := by
  induction n generalizing j l with
  | zero =>
    simp only [range_loop, Option.some.injEq] at h
    subst h
    simp
  | succ n ih =>
    simp only [range_loop] at h
    split at h
    · exact absurd h (by simp)
    · next k hk =>
      cases hr : range_loop g n (j + 1) with
      | none => rw [hr] at h; exact absurd h (by simp)
      | some l' =>
        rw [hr] at h
        simp only [Option.map_some', Option.some.injEq] at h
        subst h
        intro k' hk'
        rcases List.mem_cons.mp hk' with rfl | hk'
        · unfold at? at hk
          split_ifs at hk
          exact List.getElem?_mem hk
        · exact ih (j + 1) l' hr k' hk'

/-- The loop of `check` reads the neighbour range and reports whether no entry has colour `c`. -/
theorem check_loop_eq (g : my_graph) (colors : List Int) (c : Int) (n : Nat) (j : Int) (l : List Int)
    (h : range_loop g n j = some l) (hc : ∀ k ∈ l, ∃ x, at? colors k = some x) :
    check_loop g colors c n j = some (decide (∀ k ∈ l, at? colors k ≠ some c)) := by
  induction n generalizing j l with
  | zero =>
    simp only [range_loop, Option.some.injEq] at h
    subst h
    simp [check_loop]
  | succ n ih =>
    simp only [range_loop] at h
    split at h
    · exact absurd h (by simp)
    · next k hk =>
      cases hr : range_loop g n (j + 1) with
      | none => rw [hr] at h; exact absurd h (by simp)
      | some l' =>
        rw [hr] at h
        simp only [Option.map_some', Option.some.injEq] at h
        subst h
        obtain ⟨x, hx⟩ := hc k (List.mem_cons_self _ _)
        simp only [check_loop, hk, hx]
        by_cases e : x = c
        · subst e
          simp [hx]
        · rw [if_neg e, ih (j + 1) l' hr (fun k' hk' => hc k' (List.mem_cons_of_mem _ hk'))]
          simp [hx, e]

/-- The push loop appends the unmarked entries of the neighbour range, in order. -/
theorem push_loop_eq (g : my_graph) (used : List Bool) (n : Nat) (j : Int) (l q : List Int)
    (h : range_loop g n j = some l) (hu : ∀ k ∈ l, ∃ u, at? used k = some u) :
    push_loop g used n j q = some (q ++ l.filter (fun k => decide (at? used k = some false))) := by
  induction n generalizing j l q with
  | zero =>
    simp only [range_loop, Option.some.injEq] at h
    subst h
    simp [push_loop]
  | succ n ih =>
    simp only [range_loop] at h
    split at h
    · exact absurd h (by simp)
    · next k hk =>
      cases hr : range_loop g n (j + 1) with
      | none => rw [hr] at h; exact absurd h (by simp)
      | some l' =>
        rw [hr] at h
        simp only [Option.map_some', Option.some.injEq] at h
        subst h
        obtain ⟨u, hx⟩ := hu k (List.mem_cons_self _ _)
        simp only [push_loop, hk, hx]
        rw [ih (j + 1) l' _ hr (fun k' hk' => hu k' (List.mem_cons_of_mem _ hk'))]
        cases u <;> simp [hx, List.filter_cons]

theorem adj_eq {g : my_graph} {v : Int} {l : List Int} (h : neighbour_range g v = some l) :
    adj g v = l := by
  simp [adj, h]

theorem graphOK_adj {g : my_graph} {N : Nat} (hg : GraphOK g N) (v : Int) (h0 : 0 ≤ v) (h : v < N) :
    neighbour_range g v = some (adj g v) ∧ ∀ k ∈ adj g v, 0 ≤ k ∧ k < (N : Int) := by
  obtain ⟨l, hl, hb⟩ := hg.2.2 v h0 h
  rw [adj_eq hl]
  exact ⟨hl, hb⟩

theorem check_eq (g : my_graph) (colors : List Int) (i c : Int) (l : List Int)
    (h : neighbour_range g i = some l) (hc : ∀ k ∈ l, ∃ x, at? colors k = some x) :
    check i c g colors = some (decide (∀ k ∈ l, at? colors k ≠ some c)) := by
  obtain ⟨a, b, ha, hb, hr⟩ := neighbour_range_some h
  simp only [check, ha, hb]
  exact check_loop_eq g colors c _ a l hr hc

theorem find_color_spec (g : my_graph) (ans : List Int) (i : Int) (feas : Int → Bool)
    (hcheck : ∀ c, check i c g ans = some (feas c)) (n : Nat) (c0 : Int) :
    (∃ c, find_color i g ans n c0 = some (some c) ∧ c0 ≤ c ∧ c < c0 + n ∧ feas c = true ∧
        ∀ c', c0 ≤ c' → c' < c → feas c' = false) ∨
    (find_color i g ans n c0 = some none ∧ ∀ c', c0 ≤ c' → c' < c0 + n → feas c' = false) := by
  induction n generalizing c0 with
  | zero =>
    right
    refine ⟨rfl, fun c' h1 h2 => ?_⟩
    simp at h2
    omega
  | succ n ih =>
    simp only [find_color, hcheck]
    cases hf : feas c0 with
    | true =>
      left
      exact ⟨c0, rfl, le_refl _, by push_cast; omega, hf, fun c' h1 h2 => by omega⟩
    | false =>
      simp only
      rcases ih (c0 + 1) with ⟨c, h1, h2, h3, h4, h5⟩ | ⟨h1, h2⟩
      · left
        refine ⟨c, h1, by omega, by push_cast; omega, h4, fun c' h6 h7 => ?_⟩
        by_cases e : c' = c0
        · rw [e]; exact hf
        · exact h5 c' (by omega) h7
      · right
        refine ⟨h1, fun c' h6 h7 => ?_⟩
        by_cases e : c' = c0
        · rw [e]; exact hf
        · exact h2 c' (by omega) (by push_cast at h7; omega)

theorem used_cases {g : my_graph} {N : Nat} {st : State} (hinv : Inv g N st) (k : Int)
    (h0 : 0 ≤ k) (h : k < N) : at? st.used k = some true ∨ at? st.used k = some false := by
  obtain ⟨u, hu⟩ := at?_of_bounds st.used k h0 (by rw [hinv.used_len]; exact h)
  cases u
  · right; exact hu
  · left; exact hu

theorem ans_lt {g : my_graph} {N : Nat} {st : State} (hinv : Inv g N st) (k : Int)
    (h0 : 0 ≤ k) (h : k < N) : ∃ x, at? st.ans k = some x ∧ x < st.colors_used := by
  rcases used_cases hinv k h0 h with hu | hu
  · obtain ⟨c, hc, _, h2⟩ := hinv.colored k hu
    exact ⟨c, hc, h2⟩
  · exact ⟨-1, hinv.unused k hu, by have := hinv.cu_pos; omega⟩

theorem color_iter_spec {g : my_graph} {N : Nat} (hg : GraphOK g N) {st : State} (hinv : Inv g N st)
    {i : Int} {q : List Int} (hq : st.queue = i :: q) :
    ∃ st', color_iter g i { st with queue := q } = some st' ∧ StepSpec g i q st st' := by
  have hi := hinv.queue_bd i (by rw [hq]; exact List.mem_cons_self _ _)
  obtain ⟨hrange, hadj⟩ := graphOK_adj hg i hi.1 hi.2
  rcases used_cases hinv i hi.1 hi.2 with hu | hu
  · exact ⟨{ st with queue := q }, by simp [color_iter, hu], Or.inl ⟨hu, rfl⟩⟩
  · have hul : i < st.used.length := by rw [hinv.used_len]; exact hi.2
    have hal : i < st.ans.length := by rw [hinv.ans_len]; exact hi.2
    have hset := set?_of_bounds st.used i true hi.1 hul
    have hneg := hinv.unused i hu
    obtain ⟨a, b, ha, hb, hr⟩ := neighbour_range_some hrange
    have hpush := push_loop_eq g (st.used.set i.toNat true) _ a (adj g i) q hr (by
      intro k hk
      exact at?_of_bounds _ k (hadj k hk).1 (by rw [List.length_set, hinv.used_len]; exact (hadj k hk).2))
    have hchk : ∀ c, check i c g st.ans = some (decide (∀ k ∈ adj g i, at? st.ans k ≠ some c)) := by
      intro c
      exact check_eq g st.ans i c (adj g i) hrange (fun k hk =>
        at?_of_bounds _ k (hadj k hk).1 (by rw [hinv.ans_len]; exact (hadj k hk).2))
    have hcu : ((st.colors_used.toNat : Nat) : Int) = st.colors_used := by
      have := hinv.cu_pos; omega
    rcases find_color_spec g st.ans i _ hchk st.colors_used.toNat 0 with
      ⟨c, h1, h2, h3, h4, h5⟩ | ⟨h1, h2⟩
    · refine ⟨{ ans := st.ans.set i.toNat c, used := st.used.set i.toNat true,
                queue := q ++ (adj g i).filter (fun k => decide (at? (st.used.set i.toNat true) k = some false)),
                colors_used := st.colors_used }, ?_, Or.inr ⟨hu, c, rfl, rfl, rfl, Or.inl ⟨h2, by omega, rfl⟩, ?_, ?_⟩⟩
      · have hx : at? (st.ans.set i.toNat c) i = some c := by
          rw [at?_set _ _ _ _ hi.1 hal, if_pos rfl]
        simp only [color_iter, hu, hset, h1, set?_of_bounds st.ans i c hi.1 hal, hx,
          if_neg (show ¬ c < 0 by omega), ha, hb, hpush, Option.map_some']
      · simpa using h4
      · intro c' hc0 hc
        have := h5 c' hc0 hc
        simpa using this
    · refine ⟨{ ans := st.ans.set i.toNat st.colors_used, used := st.used.set i.toNat true,
                queue := q ++ (adj g i).filter (fun k => decide (at? (st.used.set i.toNat true) k = some false)),
                colors_used := st.colors_used + 1 }, ?_, Or.inr ⟨hu, st.colors_used, rfl, rfl, rfl, Or.inr ⟨rfl, rfl⟩, ?_, ?_⟩⟩
      · simp only [color_iter, hu, hset, h1, hneg, if_pos (show (-1 : Int) < 0 by omega),
          set?_of_bounds st.ans i st.colors_used hi.1 hal, ha, hb, hpush, Option.map_some']
      · intro k hk hc
        obtain ⟨x, hx, hlt⟩ := ans_lt hinv k (hadj k hk).1 (hadj k hk).2
        rw [hx] at hc
        have := Option.some.inj hc
        omega
      · intro c' hc0 hc
        have := h2 c' hc0 (by omega)
        simpa using this

theorem adj_length_le {g : my_graph} {v : Int} : (adj g v).length ≤ g.neighbours.length := by
  unfold adj
  cases h : neighbour_range g v with
  | none => simp
  | some l =>
    obtain ⟨a, b, _, _, hr⟩ := neighbour_range_some h
    obtain ⟨h1, h2⟩ := range_loop_length g _ a l hr
    simp only [Option.getD_some]
    by_cases hn : 0 < (b - a).toNat
    · have := h2 hn; omega
    · omega

theorem count_false_set (used : List Bool) (i : Int) (h : at? used i = some false) :
    (used.set i.toNat true).count false + 1 = used.count false := by
  have hb := at?_some_bounds h
  have hlt : i.toNat < used.length := by omega
  have hget : used[i.toNat] = false := by
    unfold at? at h
    rw [if_pos hb.1, List.getElem?_eq_getElem hlt] at h
    exact Option.some.inj h
  rw [List.count_set _ _ _ _ hlt, hget]
  have hpos : 0 < used.count false := by
    rw [List.count_pos_iff]
    rw [← hget]
    exact List.getElem_mem _
  simp
  omega

theorem inv_step {g : my_graph} {N : Nat} (hg : GraphOK g N) {st st' : State} (hinv : Inv g N st)
    {i : Int} {q : List Int} (hq : st.queue = i :: q) (hs : StepSpec g i q st st') :
    Inv g N st' ∧ work_left g st' < work_left g st := by
  have hi := hinv.queue_bd i (by rw [hq]; exact List.mem_cons_self _ _)
  obtain ⟨hrange, hadj⟩ := graphOK_adj hg i hi.1 hi.2
  have hul : i < st.used.length := by rw [hinv.used_len]; exact hi.2
  have hal : i < st.ans.length := by rw [hinv.ans_len]; exact hi.2
  rcases hs with ⟨hu, rfl⟩ | ⟨hu, c, hans, hused, hqueue, hcu, hfeas, hleast⟩
  · refine ⟨⟨hinv.ans_len, hinv.used_len, ?_, hinv.cu_pos, hinv.unused, hinv.colored, ?_, ?_⟩, ?_⟩
    · intro x hx
      exact hinv.queue_bd x (by rw [hq]; exact List.mem_cons_of_mem _ hx)
    · intro v k hv hk
      rcases hinv.closed v k hv hk with h | h
      · exact Or.inl h
      · rw [hq] at h
        rcases List.mem_cons.mp h with rfl | h
        · exact Or.inl hu
        · exact Or.inr h
    · rcases hinv.root with h | h
      · exact Or.inl h
      · rw [hq] at h
        rcases List.mem_cons.mp h with h | h
        · left; rw [h]; exact hu
        · exact Or.inr h
    · simp [work_left, hq]
  · have hU : ∀ k, at? st'.used k = if k = i then some true else at? st.used k := by
      intro k; rw [hused]; exact at?_set _ _ _ _ hi.1 hul
    have hA : ∀ k, at? st'.ans k = if k = i then some c else at? st.ans k := by
      intro k; rw [hans]; exact at?_set _ _ _ _ hi.1 hal
    have hc0 : 0 ≤ c := by
      have := hinv.cu_pos
      rcases hcu with ⟨h, _, _⟩ | ⟨h, _⟩ <;> omega
    have hcu' : c < st'.colors_used ∧ st.colors_used ≤ st'.colors_used := by
      rcases hcu with ⟨_, h1, h2⟩ | ⟨h1, h2⟩ <;> omega
    have hmemq : ∀ k, k ∈ st'.queue ↔ k ∈ q ∨ (k ∈ adj g i ∧ at? st'.used k = some false) := by
      intro k
      rw [hqueue, ← hused]
      simp [List.mem_append, List.mem_filter]
    refine ⟨⟨?_, ?_, ?_, by have := hinv.cu_pos; omega, ?_, ?_, ?_, ?_⟩, ?_⟩
    · rw [hans, List.length_set]; exact hinv.ans_len
    · rw [hused, List.length_set]; exact hinv.used_len
    · intro x hx
      rcases (hmemq x).mp hx with h | ⟨h, _⟩
      · exact hinv.queue_bd x (by rw [hq]; exact List.mem_cons_of_mem _ h)
      · exact hadj x h
    · intro v hv
      rw [hU] at hv
      by_cases e : v = i
      · rw [if_pos e] at hv; simp at hv
      · rw [if_neg e] at hv
        rw [hA, if_neg e]
        exact hinv.unused v hv
    · intro v hv
      rw [hU] at hv
      rw [hA]
      by_cases e : v = i
      · rw [if_pos e]
        exact ⟨c, rfl, hc0, hcu'.1⟩
      · rw [if_neg e] at hv ⊢
        obtain ⟨x, h1, h2, h3⟩ := hinv.colored v hv
        exact ⟨x, h1, h2, by omega⟩
    · intro v k hv hk
      rw [hU] at hv
      by_cases e : v = i
      · subst e
        have hkb := hadj k hk
        obtain ⟨u, hu'⟩ := at?_of_bounds st'.used k hkb.1 (by
          rw [hused, List.length_set, hinv.used_len]; exact hkb.2)
        cases u
        · exact Or.inr ((hmemq k).mpr (Or.inr ⟨hk, hu'⟩))
        · exact Or.inl hu'
      · rw [if_neg e] at hv
        rcases hinv.closed v k hv hk with h | h
        · left
          rw [hU]
          by_cases e2 : k = i
          · rw [if_pos e2]
          · rw [if_neg e2]; exact h
        · rw [hq] at h
          rcases List.mem_cons.mp h with h | h
          · left; rw [hU, if_pos h]
          · exact Or.inr ((hmemq k).mpr (Or.inl h))
    · by_cases e : (0 : Int) = i
      · left; rw [hU, if_pos e]
      · rcases hinv.root with h | h
        · left; rw [hU, if_neg e]; exact h
        · rw [hq] at h
          rcases List.mem_cons.mp h with h | h
          · exact absurd h e
          · exact Or.inr ((hmemq 0).mpr (Or.inl h))
    · have hcnt := count_false_set st.used i hu
      have hfl : ((adj g i).filter (fun k => decide (at? (st.used.set i.toNat true) k = some false))).length
          ≤ g.neighbours.length :=
        le_trans (List.length_filter_le _ _) adj_length_le
      simp only [work_left, hq, hqueue, hused, List.length_append, List.length_cons]
      rw [← hcnt, Nat.succ_mul]
      omega

/-- A property that every round of the work loop preserves, under a quantity that
every round decreases, holds when the loop stops, and the loop does stop within any
budget above that quantity. -/
theorem color_loop_inv (g : my_graph) (P : State → Prop) (m : State → Nat)
    (hstep : ∀ st i q, P st → st.queue = i :: q →
      ∃ st', color_iter g i { st with queue := q } = some st' ∧ P st' ∧ m st' < m st) :
    ∀ (fuel : Nat) (st : State), P st → m st < fuel →
      ∃ st', color_loop g fuel st = some st' ∧ P st' ∧ st'.queue = [] := by
  intro fuel
  induction fuel with
  | zero => intro st _ h; omega
  | succ fuel ih =>
    intro st hP hm
    cases hq : st.queue with
    | nil => exact ⟨st, by simp [color_loop, hq], hP, hq⟩
    | cons i q =>
      obtain ⟨st1, h1, h2, h3⟩ := hstep st i q hP hq
      obtain ⟨st2, h4, h5, h6⟩ := ih st1 h2 (by omega)
      exact ⟨st2, by simp [color_loop, hq, h1, h4], h5, h6⟩

theorem graphOK_size {g : my_graph} {N : Nat} (hg : GraphOK g N) : g.size = N := by
  simp [my_graph.size, hg.2.1]

theorem init_inv {g : my_graph} {N : Nat} (hg : GraphOK g N) : Inv g N (init_state g []) := by
  have hs := graphOK_size hg
  have hans : (init_state g []).ans = List.replicate N (-1) := by
    simp [init_state, resize, hs]
  have hused : (init_state g []).used = List.replicate N false := by
    simp [init_state, hs]
  refine ⟨by simp [hans], by simp [hused], ?_, by simp [init_state], ?_, ?_, ?_, ?_⟩
  · intro q hq
    have : q = 0 := by simpa [init_state] using hq
    have := hg.1
    subst q
    omega
  · intro v hv
    rw [hused] at hv
    rw [hans]
    have hb := at?_some_bounds hv
    obtain ⟨x, hx⟩ := at?_of_bounds (List.replicate N (-1 : Int)) v hb.1 (by simpa using hb.2)
    rw [hx, at?_replicate _ _ _ _ hx]
  · intro v hv
    rw [hused] at hv
    exact absurd (at?_replicate _ _ _ _ hv) (by simp)
  · intro v k hv
    rw [hused] at hv
    exact absurd (at?_replicate _ _ _ _ hv) (by simp)
  · right; simp [init_state]

theorem init_work_left {g : my_graph} {N : Nat} (hg : GraphOK g N) :
    work_left g (init_state g []) < g.size * (g.neighbours.length + 1) + 2 := by
  simp [work_left, init_state, graphOK_size hg]

/-- The run of `color_graph` on a fresh result array: it returns, its final state
satisfies the loop invariant with an empty queue, and any further property that the
rounds preserve. -/
theorem color_graph_run {g : my_graph} {N : Nat} (hg : GraphOK g N) (E : State → Prop)
    (hE0 : E (init_state g []))
    (hEstep : ∀ st st' i q, Inv g N st → E st → st.queue = i :: q → StepSpec g i q st st' → E st') :
    ∃ st, color_graph g [] = some (st.colors_used, st.ans) ∧ Inv g N st ∧ E st ∧ st.queue = [] := by
  have hstep : ∀ st i q, (Inv g N st ∧ E st) → st.queue = i :: q →
      ∃ st', color_iter g i { st with queue := q } = some st' ∧ (Inv g N st' ∧ E st') ∧
        work_left g st' < work_left g st := by
    intro st i q ⟨hinv, hE⟩ hq
    obtain ⟨st', h1, h2⟩ := color_iter_spec hg hinv hq
    obtain ⟨h3, h4⟩ := inv_step hg hinv hq h2
    exact ⟨st', h1, ⟨h3, hEstep st st' i q hinv hE hq h2⟩, h4⟩
  obtain ⟨st, h1, ⟨h2, h3⟩, h4⟩ := color_loop_inv g (fun st => Inv g N st ∧ E st) (work_left g) hstep
    _ (init_state g []) ⟨init_inv hg, hE0⟩ (init_work_left hg)
  exact ⟨st, by simp [color_graph, h1], h2, h3, h4⟩

theorem reach_used {g : my_graph} {N : Nat} {st : State} (hinv : Inv g N st) (hq : st.queue = [])
    {v : Int} (hr : Reach g v) : at? st.used v = some true := by
  induction hr with
  | root =>
    rcases hinv.root with h | h
    · exact h
    · rw [hq] at h; exact absurd h (List.not_mem_nil _)
  | step _ hk ih =>
    rcases hinv.closed _ _ ih hk with h | h
    · exact h
    · rw [hq] at h; exact absurd h (List.not_mem_nil _)

theorem proper_step {g : my_graph} {N : Nat} (hsym : SymmetricGraph g N)
    (hlf : LoopFree g N) {st st' : State} (hinv : Inv g N st) (hp : ProperSt g st)
    {i : Int} {q : List Int} (hq : st.queue = i :: q) (hs : StepSpec g i q st st') :
    ProperSt g st' := by
  have hi := hinv.queue_bd i (by rw [hq]; exact List.mem_cons_self _ _)
  have hul : i < st.used.length := by rw [hinv.used_len]; exact hi.2
  have hal : i < st.ans.length := by rw [hinv.ans_len]; exact hi.2
  rcases hs with ⟨_, rfl⟩ | ⟨hu, c, hans, hused, _, _, hfeas, _⟩
  · exact hp
  · have hU : ∀ k, at? st'.used k = if k = i then some true else at? st.used k := by
      intro k; rw [hused]; exact at?_set _ _ _ _ hi.1 hul
    have hA : ∀ k, at? st'.ans k = if k = i then some c else at? st.ans k := by
      intro k; rw [hans]; exact at?_set _ _ _ _ hi.1 hal
    intro v k hv hk hadj
    rw [hU] at hv hk
    rw [hA v, hA k]
    by_cases e1 : v = i
    · subst e1
      have e2 : k ≠ v := by
        intro e; subst e; exact hlf k hi.1 hi.2 hadj
      rw [if_pos rfl, if_neg e2]
      exact fun h => hfeas k hadj h.symm
    · rw [if_neg e1] at hv ⊢
      by_cases e2 : k = i
      · subst e2
        rw [if_pos rfl]
        have hvb := at?_some_bounds hv
        rw [hinv.used_len] at hvb
        exact hfeas v (hsym v k hvb.1 hvb.2 hadj)
      · rw [if_neg e2] at hk ⊢
        exact hp v k hv hk hadj

/-- The greedy colouring of a symmetric, loop-free graph that is connected from
vertex 0: every vertex gets a colour below the returned count and the two ends of
every adjacency entry get different colours. -/
theorem color_graph_proper {g : my_graph} {N : Nat} (hg : GraphOK g N) (hsym : SymmetricGraph g N)
    (hlf : LoopFree g N) (hconn : Connected g N) :
    ∃ cc color, color_graph g [] = some (cc, color) ∧ color.length = N ∧
      (∀ v : Int, 0 ≤ v → v < N → ∃ c, at? color v = some c ∧ 0 ≤ c ∧ c < cc) ∧
      (∀ v : Int, 0 ≤ v → v < N → ∀ k ∈ adj g v, at? color v ≠ at? color k) := by
  obtain ⟨st, h1, hinv, hp, hq⟩ := color_graph_run hg (ProperSt g)
    (by
      intro v k hv
      have hused : (init_state g []).used = List.replicate N false := by
        simp [init_state, graphOK_size hg]
      rw [hused] at hv
      exact absurd (at?_replicate _ _ _ _ hv) (by simp))
    (fun st st' i q hinv hE hq hs => proper_step hsym hlf hinv hE hq hs)
  refine ⟨st.colors_used, st.ans, h1, hinv.ans_len, ?_, ?_⟩
  · intro v h0 h
    exact hinv.colored v (reach_used hinv hq (hconn v h0 h))
  · intro v h0 h k hk
    have hkb := (graphOK_adj hg v h0 h).2 k hk
    exact hp v k (reach_used hinv hq (hconn v h0 h)) (reach_used hinv hq (hconn k hkb.1 hkb.2)) hk

theorem wellFormed_offset_nonneg {g : my_graph} {N : Nat} (hw : WellFormed g N) (n : Nat)
    (hn : n ≤ N) : ∃ x, at? g.offset (n : Int) = some x ∧ 0 ≤ x := by
  induction n with
  | zero => exact ⟨0, hw.2.1, le_refl _⟩
  | succ n ih =>
    obtain ⟨x, hx, hx0⟩ := ih (by omega)
    obtain ⟨x', y, h1, h2, h3⟩ := hw.2.2.1 (n : Int) (by omega) (by omega)
    rw [hx] at h1
    have := Option.some.inj h1
    refine ⟨y, by push_cast; exact h2, by omega⟩

theorem wellFormed_offset_le {g : my_graph} {N : Nat} (hw : WellFormed g N) (d : Nat)
    (hd : d ≤ N) : ∃ x, at? g.offset ((N - d : Nat) : Int) = some x ∧ x ≤ g.neighbours.length := by
  induction d with
  | zero => exact ⟨_, hw.2.2.2.1, le_refl _⟩
  | succ d ih =>
    obtain ⟨x, hx, hx0⟩ := ih (by omega)
    obtain ⟨x', y, h1, h2, h3⟩ := hw.2.2.1 ((N - (d + 1) : Nat) : Int) (by omega) (by omega)
    have e : (((N - (d + 1) : Nat) : Int) + 1) = ((N - d : Nat) : Int) := by omega
    rw [e, hx] at h2
    have := Option.some.inj h2
    exact ⟨x', h1, by omega⟩

theorem wellFormed_graphOK {g : my_graph} {N : Nat} (hw : WellFormed g N) (hN : 1 ≤ N) :
    GraphOK g N := by
  refine ⟨hN, hw.1, ?_⟩
  intro v h0 h
  obtain ⟨n, rfl⟩ := Int.eq_ofNat_of_zero_le h0
  have hn : n < N := by omega
  obtain ⟨x, y, h1, h2, h3⟩ := hw.2.2.1 (n : Int) h0 h
  obtain ⟨x', h4, h5⟩ := wellFormed_offset_nonneg hw n (by omega)
  obtain ⟨y', h6, h7⟩ := wellFormed_offset_le hw (N - (n + 1)) (by omega)
  have e : ((N - (N - (n + 1)) : Nat) : Int) = (n : Int) + 1 := by omega
  rw [e, h2] at h6
  rw [h1] at h4
  have e1 := Option.some.inj h4
  have e2 := Option.some.inj h6
  subst e1 e2
  obtain ⟨a, rfl⟩ := Int.eq_ofNat_of_zero_le h5
  have hr := range_loop_eq g (y - (a : Int)).toNat a (by omega)
  refine ⟨_, by simp only [neighbour_range, h1, h2]; exact hr, ?_⟩
  intro k hk
  exact hw.2.2.2.2 k (List.mem_of_mem_drop (List.mem_of_mem_take hk))

theorem bip_step {g : my_graph} {N : Nat} (hg : GraphOK g N) (hsym : SymmetricGraph g N)
    {p : Int → Int} (hp : TwoColouring g N p) {st st' : State} (hinv : Inv g N st)
    (hb : Bip g p st) {i : Int} {q : List Int} (hq : st.queue = i :: q)
    (hs : StepSpec g i q st st') : Bip g p st' := by
  obtain ⟨hpar, hcu12, hcu1, hcu2, hqpar⟩ := hb
  have hi := hinv.queue_bd i (by rw [hq]; exact List.mem_cons_self _ _)
  obtain ⟨_, hadj⟩ := graphOK_adj hg i hi.1 hi.2
  have hul : i < st.used.length := by rw [hinv.used_len]; exact hi.2
  have hal : i < st.ans.length := by rw [hinv.ans_len]; exact hi.2
  rcases hs with ⟨_, rfl⟩ | ⟨hu, c, hans, hused, hqueue, hcu, hfeas, hleast⟩
  · exact ⟨hpar, hcu12, hcu1, hcu2, fun x hx => hqpar x (by rw [hq]; exact List.mem_cons_of_mem _ hx)⟩
  · have hU : ∀ k, at? st'.used k = if k = i then some true else at? st.used k := by
      intro k; rw [hused]; exact at?_set _ _ _ _ hi.1 hul
    have hA : ∀ k, at? st'.ans k = if k = i then some c else at? st.ans k := by
      intro k; rw [hans]; exact at?_set _ _ _ _ hi.1 hal
    have hmono : ∀ k, at? st.used k = some true → at? st'.used k = some true := by
      intro k hk
      rw [hU]
      by_cases e : k = i
      · rw [if_pos e]
      · rw [if_neg e]; exact hk
    have hc0 : 0 ≤ c := by
      have := hinv.cu_pos
      rcases hcu with ⟨h, _, _⟩ | ⟨h, _⟩ <;> omega
    -- a neighbour holding a proper colour holds its own two-colouring value
    have hnb : ∀ k ∈ adj g i, ∀ x, at? st.ans k = some x → 0 ≤ x →
        at? st.used k = some true ∧ x = p k := by
      intro k hk x hx hx0
      rcases used_cases hinv k (hadj k hk).1 (hadj k hk).2 with h | h
      · have := hpar k h
        rw [hx] at this
        exact ⟨h, Option.some.inj this⟩
      · have := hinv.unused k h
        rw [hx] at this
        have := Option.some.inj this
        omega
    have hc : c = p i := by
      rcases hp.2.1 i hi.1 hi.2 with h0 | h1
      · rw [h0]
        by_contra hne
        obtain ⟨k, hk, hk0⟩ := hleast 0 (le_refl _) (by omega)
        have := (hnb k hk 0 hk0 (le_refl _)).2
        have := hp.2.2 i k hi.1 hi.2 hk
        omega
      · rw [h1]
        have hi0 : i ≠ 0 := by
          intro e
          rw [e, hp.1] at h1
          omega
        rcases hqpar i (by rw [hq]; exact List.mem_cons_self _ _) with e | ⟨u, hu1, hu2⟩
        · exact absurd e hi0
        · have hub := hadj u hu1
          have hpu : p u = 0 := by
            have := hp.2.2 i u hi.1 hi.2 hu1
            rcases hp.2.1 u hub.1 hub.2 with h | h <;> omega
          have hne0 : c ≠ 0 := by
            intro e
            apply hfeas u hu1
            rw [hpar u hu2, hpu, e]
          by_contra hne
          obtain ⟨k, hk, hk1⟩ := hleast 1 (by omega) (by omega)
          have := (hnb k hk 1 hk1 (by omega)).2
          have := hp.2.2 i k hi.1 hi.2 hk
          omega
    have hpi := hp.2.1 i hi.1 hi.2
    have hcp := hinv.cu_pos
    refine ⟨?_, ?_, ?_, ?_, ?_⟩
    · intro v hv
      rw [hU] at hv
      rw [hA]
      by_cases e : v = i
      · rw [if_pos e, e, hc]
      · rw [if_neg e] at hv ⊢
        exact hpar v hv
    · rcases hcu with ⟨_, _, h⟩ | ⟨h1, h2⟩
      · rw [h]; exact hcu12
      · omega
    · intro h1 v hv
      rw [hU] at hv
      have hcu1' : st.colors_used = 1 ∧ c = 0 := by
        rcases hcu with ⟨_, h2, h3⟩ | ⟨h2, h3⟩ <;> omega
      by_cases e : v = i
      · rw [e, ← hc]; exact hcu1'.2
      · rw [if_neg e] at hv
        exact hcu1 hcu1'.1 v hv
    · intro h2
      rcases hcu with ⟨_, h3, h4⟩ | ⟨h3, h4⟩
      · obtain ⟨v, hv1, hv2⟩ := hcu2 (by omega)
        exact ⟨v, hmono v hv1, hv2⟩
      · refine ⟨i, by rw [hU, if_pos rfl], ?_⟩
        omega
    · intro x hx
      rw [hqueue] at hx
      rcases List.mem_append.mp hx with h | h
      · rcases hqpar x (by rw [hq]; exact List.mem_cons_of_mem _ h) with e | ⟨u, hu1, hu2⟩
        · exact Or.inl e
        · exact Or.inr ⟨u, hu1, hmono u hu2⟩
      · have hx' := (List.mem_filter.mp h).1
        exact Or.inr ⟨i, hsym i x hi.1 hi.2 hx', by rw [hU, if_pos rfl]⟩

/-- On a symmetric graph connected from vertex 0 that has a two-colouring `p` with
`p 0 = 0`, the greedy colouring is `p`, and it uses one colour exactly when `p` is
constantly 0. -/
theorem color_graph_two_colouring {g : my_graph} {N : Nat} (hg : GraphOK g N)
    (hsym : SymmetricGraph g N) (hconn : Connected g N) {p : Int → Int} (hp : TwoColouring g N p) :
    ∃ cc color, color_graph g [] = some (cc, color) ∧ color.length = N ∧
      (∀ v : Int, 0 ≤ v → v < N → at? color v = some (p v)) ∧
      (cc = 1 ∨ cc = 2) ∧ (cc = 1 ↔ ∀ v : Int, 0 ≤ v → v < N → p v = 0) := by
  have hused : (init_state g []).used = List.replicate N false := by
    simp [init_state, graphOK_size hg]
  obtain ⟨st, h1, hinv, hb, hq⟩ := color_graph_run hg (Bip g p)
    (by
      refine ⟨?_, Or.inl rfl, ?_, ?_, ?_⟩
      · intro v hv
        rw [hused] at hv
        exact absurd (at?_replicate _ _ _ _ hv) (by simp)
      · intro _ v hv
        rw [hused] at hv
        exact absurd (at?_replicate _ _ _ _ hv) (by simp)
      · intro h
        simp [init_state] at h
      · intro x hx
        left
        simpa [init_state] using hx)
    (fun st st' i q hinv hE hq hs => bip_step hg hsym hp hinv hE hq hs)
  obtain ⟨hpar, hcu12, hcu1, hcu2, _⟩ := hb
  refine ⟨st.colors_used, st.ans, h1, hinv.ans_len, ?_, hcu12, ?_, ?_⟩
  · intro v h0 h
    exact hpar v (reach_used hinv hq (hconn v h0 h))
  · intro h v h0 hv
    exact hcu1 h v (reach_used hinv hq (hconn v h0 hv))
  · intro h
    rcases hcu12 with h1 | h2
    · exact h1
    · obtain ⟨v, hv1, hv2⟩ := hcu2 h2
      have hvb := at?_some_bounds hv1
      rw [hinv.used_len] at hvb
      have := h v hvb.1 hvb.2
      omega

theorem lattice_size_cast (ni nj : Int) (hni : 0 ≤ ni) (hnj : 0 ≤ nj) :
    ((lattice_size ni nj : Nat) : Int) = ni * nj := by
  unfold lattice_size
  push_cast
  rw [Int.toNat_of_nonneg hni, Int.toNat_of_nonneg hnj]

theorem parity_coords (nj i j : Int) (hj0 : 0 ≤ j) (hj : j < nj) :
    parity nj (j + i * nj) = (i + j) % 2 := by
  unfold parity
  have h1 : (j + i * nj) % nj = j := by
    rw [Int.add_mul_emod_self, Int.emod_eq_of_lt hj0 hj]
  have h2 : (j + i * nj) / nj = i := by
    rw [Int.add_mul_ediv_right _ _ (by omega), Int.ediv_eq_zero_of_lt hj0 hj, zero_add]
  rw [h1, h2]

theorem lattice_adj (ni nj i j : Int) (hi0 : 0 ≤ i) (hi : i < ni) (hj0 : 0 ≤ j) (hj : j < nj) :
    adj (lattice ni nj) (j + i * nj) = spec_group ni nj i j :=
  adj_eq (lattice_range ni nj i j hi0 hi hj0 hj)

theorem lattice_offset_length (ni nj : Int) :
    (lattice ni nj).offset.length = lattice_size ni nj + 1 := by
  rw [lattice_eq_csr, csr_offset_length, lattice_groups_length, lattice_size]

theorem lattice_graphOK (ni nj : Int) (hni : 1 ≤ ni) (hnj : 1 ≤ nj) :
    GraphOK (lattice ni nj) (lattice_size ni nj) := by
  have hc := lattice_size_cast ni nj (by omega) (by omega)
  refine ⟨?_, lattice_offset_length ni nj, ?_⟩
  · have : (1 : Int) ≤ ni * nj := by
      have := (row_bounds ni nj 0 (le_refl _) (by omega) (by omega)).2
      omega
    omega
  · intro v h0 h
    rw [hc] at h
    obtain ⟨i, j, hi0, hi, hj0, hj, rfl⟩ := vertex_coords ni nj v h0 h hnj
    refine ⟨_, lattice_range ni nj i j hi0 hi hj0 hj, ?_⟩
    intro k hk
    have := spec_group_bounds ni nj i j k hi0 hi hj0 hj hk
    rw [hc]
    exact ⟨this.1, this.2.1⟩

theorem lattice_symmetric (ni nj : Int) (hni : 1 ≤ ni) (hnj : 1 ≤ nj) :
    SymmetricGraph (lattice ni nj) (lattice_size ni nj) := by
  have hc := lattice_size_cast ni nj (by omega) (by omega)
  intro v k h0 h hk
  rw [hc] at h
  obtain ⟨i, j, hi0, hi, hj0, hj, rfl⟩ := vertex_coords ni nj v h0 h hnj
  rw [lattice_adj ni nj i j hi0 hi hj0 hj] at hk
  have hkb := spec_group_bounds ni nj i j k hi0 hi hj0 hj hk
  obtain ⟨i', j', hi0', hi', hj0', hj', rfl⟩ := vertex_coords ni nj k hkb.1 hkb.2.1 hnj
  rw [lattice_adj ni nj i' j' hi0' hi' hj0' hj']
  rw [mem_spec_group_coords ni nj i j i' j' hi hj0 hj hi0' hj0' hj'] at hk
  rw [mem_spec_group_coords ni nj i' j' i j hi' hj0' hj' hi0 hj0 hj]
  omega

theorem lattice_loopFree (ni nj : Int) (hni : 1 ≤ ni) (hnj : 1 ≤ nj) :
    LoopFree (lattice ni nj) (lattice_size ni nj) := by
  have hc := lattice_size_cast ni nj (by omega) (by omega)
  intro v h0 h hk
  rw [hc] at h
  obtain ⟨i, j, hi0, hi, hj0, hj, rfl⟩ := vertex_coords ni nj v h0 h hnj
  rw [lattice_adj ni nj i j hi0 hi hj0 hj] at hk
  exact (spec_group_bounds ni nj i j _ hi0 hi hj0 hj hk).2.2 rfl

theorem lattice_reach_coords (ni nj : Int) (i j : Nat) (hi : (i : Int) < ni) (hj : (j : Int) < nj) :
    Reach (lattice ni nj) ((j : Int) + (i : Int) * nj) := by
  induction j with
  | zero =>
    induction i with
    | zero =>
      have : ((0 : Nat) : Int) + ((0 : Nat) : Int) * nj = 0 := by simp
      rw [this]
      exact Reach.root
    | succ i ih =>
      have h := ih (by push_cast at hi; omega)
      refine Reach.step h ?_
      rw [lattice_adj ni nj i (0 : Nat) (by omega) (by push_cast at hi; omega) (by simp) hj,
        mem_spec_group]
      right; right; left
      exact ⟨by push_cast at hi; omega, by push_cast; ring⟩
  | succ j ih =>
    have h := ih (by push_cast at hj; omega)
    refine Reach.step h ?_
    rw [lattice_adj ni nj i j (by omega) hi (by omega) (by push_cast at hj; omega), mem_spec_group]
    right; left
    exact ⟨by push_cast at hj; omega, by push_cast; ring⟩

theorem lattice_connected (ni nj : Int) (hni : 1 ≤ ni) (hnj : 1 ≤ nj) :
    Connected (lattice ni nj) (lattice_size ni nj) := by
  have hc := lattice_size_cast ni nj (by omega) (by omega)
  intro v h0 h
  rw [hc] at h
  obtain ⟨i, j, hi0, hi, hj0, hj, rfl⟩ := vertex_coords ni nj v h0 h hnj
  obtain ⟨i, rfl⟩ := Int.eq_ofNat_of_zero_le hi0
  obtain ⟨j, rfl⟩ := Int.eq_ofNat_of_zero_le hj0
  exact lattice_reach_coords ni nj i j hi hj

theorem lattice_twoColouring (ni nj : Int) (hni : 1 ≤ ni) (hnj : 1 ≤ nj) :
    TwoColouring (lattice ni nj) (lattice_size ni nj) (parity nj) := by
  have hc := lattice_size_cast ni nj (by omega) (by omega)
  refine ⟨?_, ?_, ?_⟩
  · have := parity_coords nj 0 0 (le_refl _) (by omega)
    simpa using this
  · intro v _ _
    unfold parity
    omega
  · intro v k h0 h hk
    rw [hc] at h
    obtain ⟨i, j, hi0, hi, hj0, hj, rfl⟩ := vertex_coords ni nj v h0 h hnj
    rw [lattice_adj ni nj i j hi0 hi hj0 hj] at hk
    have hkb := spec_group_bounds ni nj i j k hi0 hi hj0 hj hk
    obtain ⟨i', j', hi0', hi', hj0', hj', rfl⟩ := vertex_coords ni nj k hkb.1 hkb.2.1 hnj
    rw [mem_spec_group_coords ni nj i j i' j' hi hj0 hj hi0' hj0' hj'] at hk
    rw [parity_coords nj i j hj0 hj, parity_coords nj i' j' hj0' hj']
    omega

/-- The greedy colouring of the lattice is the checkerboard. -/
theorem lattice_checkerboard (ni nj : Int) (hni : 1 ≤ ni) (hnj : 1 ≤ nj) :
    ∃ cc color, color_graph (lattice ni nj) [] = some (cc, color) ∧
      (color.length : Int) = ni * nj ∧
      (∀ i j : Int, 0 ≤ i → i < ni → 0 ≤ j → j < nj →
        at? color (j + i * nj) = some ((i + j) % 2)) ∧
      cc = (if ni * nj = 1 then 1 else 2) := by
  have hc := lattice_size_cast ni nj (by omega) (by omega)
  obtain ⟨cc, color, h1, h2, h3, h4, h5⟩ := color_graph_two_colouring
    (lattice_graphOK ni nj hni hnj) (lattice_symmetric ni nj hni hnj)
    (lattice_connected ni nj hni hnj) (lattice_twoColouring ni nj hni hnj)
  refine ⟨cc, color, h1, by rw [h2, hc], ?_, ?_⟩
  · intro i j hi0 hi hj0 hj
    have hb := row_bounds ni nj i hi0 hi (by omega)
    rw [h3 (j + i * nj) (by omega) (by rw [hc]; omega), parity_coords nj i j hj0 hj]
  · by_cases hone : ni * nj = 1
    · rw [if_pos hone]
      rw [h5]
      intro v h0 hv
      rw [hc, hone] at hv
      have : v = 0 := by omega
      subst this
      have := parity_coords nj 0 0 (le_refl _) (by omega)
      simpa using this
    · rw [if_neg hone]
      rcases h4 with h | h
      · exfalso
        have hall := h5.mp h
        have hb := (row_bounds ni nj 0 (le_refl _) (by omega) (by omega)).2
        by_cases hnj1 : nj = 1
        · subst hnj1
          have hni2 : 2 ≤ ni := by omega
          have := hall 1 (by omega) (by rw [hc]; omega)
          have e := parity_coords 1 1 0 (le_refl _) (by omega)
          simp at e
          omega
        · have := hall 1 (by omega) (by rw [hc]; omega)
          have e := parity_coords nj 0 1 (by omega) (by omega)
          simp at e
          omega
      · exact h

theorem csr_offset_mono (L : List (List Int)) (v : Nat) (hv : v < L.length) :
    (L.take v).flatten.length ≤ (L.take (v + 1)).flatten.length := by
  rw [List.take_succ, List.getElem?_eq_getElem hv]
  simp only [Option.toList, List.flatten_append, List.length_append]
  omega

/-- The offset table of the lattice is a well-formed index into its neighbour list. -/
theorem lattice_wellFormed (ni nj : Int) (hni : 1 ≤ ni) (hnj : 1 ≤ nj) :
    WellFormed (lattice ni nj) (lattice_size ni nj) := by
  have hc := lattice_size_cast ni nj (by omega) (by omega)
  have hlen : (lattice_groups ni nj).length = lattice_size ni nj := lattice_groups_length ni nj
  refine ⟨lattice_offset_length ni nj, ?_, ?_, ?_, ?_⟩
  · have := csr_offset (lattice_groups ni nj) 0 (Nat.zero_le _)
    rw [lattice_eq_csr]
    simpa using this
  · intro v h0 h
    obtain ⟨n, rfl⟩ := Int.eq_ofNat_of_zero_le h0
    have hn : n < (lattice_groups ni nj).length := by rw [hlen]; omega
    have e : ((n : Int) + 1) = ((n + 1 : Nat) : Int) := by push_cast; rfl
    refine ⟨(((lattice_groups ni nj).take n).flatten.length : Nat),
      (((lattice_groups ni nj).take (n + 1)).flatten.length : Nat), ?_, ?_, ?_⟩
    · rw [lattice_eq_csr]; exact csr_offset _ n (by omega)
    · rw [lattice_eq_csr, e]; exact csr_offset _ (n + 1) (by omega)
    · exact_mod_cast csr_offset_mono _ n hn
  · have := csr_offset (lattice_groups ni nj) (lattice_size ni nj) (by rw [hlen])
    rw [← hlen, List.take_length] at this
    rw [lattice_eq_csr, ← hlen]
    exact this
  · intro k hk
    obtain ⟨i, j, hi0, hi, hj0, hj, hkm⟩ : ∃ i j : Int, 0 ≤ i ∧ i < ni ∧ 0 ≤ j ∧ j < nj ∧
        k ∈ spec_group ni nj i j := by
      rw [lattice_eq_csr] at hk
      simp only [csr, lattice_groups, List.mem_flatten, List.mem_flatMap, List.mem_map,
        List.mem_range] at hk
      obtain ⟨l, ⟨a, ha, b, hb, rfl⟩, hkl⟩ := hk
      exact ⟨a, b, by omega, by omega, by omega, by omega, hkl⟩
    have := spec_group_bounds ni nj i j k hi0 hi hj0 hj hkm
    rw [hc]
    exact ⟨this.1, this.2.1⟩

/-- On the lattice in exact arithmetic: for `ni, nj ≥ 1`, `color_graph` returns on the
graph built by `generate_graph(ni, nj)`, and for every vertex `i` below `ni * nj` and
every entry `k` of its neighbour range, `color[i]` and `color[k]` are defined and
different. -/
theorem lattice_proper (ni nj : Int) (hni : 1 ≤ ni) (hnj : 1 ≤ nj) :
    ∃ cc color, color_graph (lattice ni nj) [] = some (cc, color) ∧
      ∀ i : Int, 0 ≤ i → i < ni * nj →
        ∃ l, neighbour_range (lattice ni nj) i = some l ∧
          ∀ k ∈ l, ∃ ci ck, at? color i = some ci ∧ at? color k = some ck ∧ ci ≠ ck := by
  have hc := lattice_size_cast ni nj (by omega) (by omega)
  have hg := lattice_graphOK ni nj hni hnj
  obtain ⟨cc, color, h1, _, h3, h4⟩ := color_graph_proper hg
    (lattice_symmetric ni nj hni hnj) (lattice_loopFree ni nj hni hnj)
    (lattice_connected ni nj hni hnj)
  refine ⟨cc, color, h1, ?_⟩
  intro i h0 hi
  rw [← hc] at hi
  obtain ⟨hr, hb⟩ := graphOK_adj hg i h0 hi
  refine ⟨_, hr, ?_⟩
  intro k hk
  obtain ⟨ci, hci, _⟩ := h3 i h0 hi
  obtain ⟨ck, hck, _⟩ := h3 k (hb k hk).1 (hb k hk).2
  refine ⟨ci, ck, hci, hck, ?_⟩
  intro e
  apply h4 i h0 hi k hk
  rw [hci, hck, e]

/-- C2 (proper colouring on any valid graph): for a well-formed compressed graph with
`N ≥ 1` vertices that is symmetric, free of self-loops and connected from vertex 0,
`color_graph` (called on a fresh result array) returns, and for every vertex `i` and
every entry `k` of its neighbour range, `color[i]` and `color[k]` are defined and
different. -/
theorem color_graph_proper_colouring (g : my_graph) (N : Nat) (hN : 1 ≤ N)
    (hw : WellFormed g N) (hsym : SymmetricGraph g N) (hlf : LoopFree g N)
    (hconn : Connected g N) :
    ∃ cc color, color_graph g [] = some (cc, color) ∧
      ∀ i : Int, 0 ≤ i → i < N →
        ∃ l, neighbour_range g i = some l ∧
          ∀ k ∈ l, ∃ ci ck, at? color i = some ci ∧ at? color k = some ck ∧ ci ≠ ck := by
  have hg := wellFormed_graphOK hw hN
  obtain ⟨cc, color, h1, _, h3, h4⟩ := color_graph_proper hg hsym hlf hconn
  refine ⟨cc, color, h1, ?_⟩
  intro i h0 hi
  obtain ⟨hr, hb⟩ := graphOK_adj hg i h0 hi
  refine ⟨_, hr, ?_⟩
  intro k hk
  obtain ⟨ci, hci, _⟩ := h3 i h0 hi
  obtain ⟨ck, hck, _⟩ := h3 k (hb k hk).1 (hb k hk).2
  refine ⟨ci, ck, hci, hck, ?_⟩
  intro e
  apply h4 i h0 hi k hk
  rw [hci, hck, e]

theorem color_graph_proper_colouring_witness :
    1 ≤ 3 ∧ WellFormed triangle 3 ∧ SymmetricGraph triangle 3 ∧ LoopFree triangle 3 ∧
    Connected triangle 3 ∧
    ∃ cc color, color_graph triangle [] = some (cc, color) ∧
      ∀ i : Int, 0 ≤ i → i < (3 : Nat) →
        ∃ l, neighbour_range triangle i = some l ∧
          ∀ k ∈ l, ∃ ci ck, at? color i = some ci ∧ at? color k = some ck ∧ ci ≠ ck :=
  have hw : WellFormed triangle 3 := by
    refine ⟨by decide, by decide, ?_, by decide, by decide⟩
    intro v h0 h
    have h3 : v < 3 := h
    interval_cases v
    · exact ⟨0, 2, by decide, by decide, by decide⟩
    · exact ⟨2, 4, by decide, by decide, by decide⟩
    · exact ⟨4, 6, by decide, by decide, by decide⟩
  have hsym : SymmetricGraph triangle 3 := by
    intro v k h0 h
    have h3 : v < 3 := h
    interval_cases v
    · intro hk
      have hk2 : k ∈ [1, 2] := hk
      simp only [List.mem_cons, List.mem_singleton, List.not_mem_nil, or_false] at hk2
      rcases hk2 with rfl | rfl <;> decide
    · intro hk
      have hk2 : k ∈ [0, 2] := hk
      simp only [List.mem_cons, List.mem_singleton, List.not_mem_nil, or_false] at hk2
      rcases hk2 with rfl | rfl <;> decide
    · intro hk
      have hk2 : k ∈ [0, 1] := hk
      simp only [List.mem_cons, List.mem_singleton, List.not_mem_nil, or_false] at hk2
      rcases hk2 with rfl | rfl <;> decide
  have hlf : LoopFree triangle 3 := by
    intro v h0 h
    have h3 : v < 3 := h
    interval_cases v <;> decide
  have hconn : Connected triangle 3 := by
    intro v h0 h
    have h3 : v < 3 := h
    interval_cases v
    · exact Reach.root
    · exact Reach.step Reach.root (by decide)
    · exact Reach.step Reach.root (by decide)
  ⟨by decide, hw, hsym, hlf, hconn,
    color_graph_proper_colouring triangle 3 (by decide) hw hsym hlf hconn⟩

/-- On the lattice in exact arithmetic: for `ni, nj ≥ 1`, after `color_graph` runs on the lattice the
colour array has length `ni * nj` and every entry is a non-sentinel colour:
`color[i] ≥ 0`, hence `color[i] ≠ -1`, for every `i` below `ni * nj`. -/
theorem lattice_complete (ni nj : Int) (hni : 1 ≤ ni) (hnj : 1 ≤ nj) :
    ∃ cc color, color_graph (lattice ni nj) [] = some (cc, color) ∧
      (color.length : Int) = ni * nj ∧
      ∀ i : Int, 0 ≤ i → i < ni * nj → ∃ c, at? color i = some c ∧ 0 ≤ c ∧ c ≠ -1 := by
  have hc := lattice_size_cast ni nj (by omega) (by omega)
  obtain ⟨cc, color, h1, h2, h3, _⟩ := color_graph_proper (lattice_graphOK ni nj hni hnj)
    (lattice_symmetric ni nj hni hnj) (lattice_loopFree ni nj hni hnj)
    (lattice_connected ni nj hni hnj)
  refine ⟨cc, color, h1, by rw [h2, hc], ?_⟩
  intro i h0 hi
  obtain ⟨c, hc1, hc2, _⟩ := h3 i h0 (by rw [hc]; exact hi)
  exact ⟨c, hc1, hc2, by omega⟩

/-- On the lattice in exact arithmetic: for `ni, nj ≥ 1` and vertices `i`, `k` below `ni * nj`,
`k` occurs in the neighbour range of `i` if and only if `i` occurs in the neighbour
range of `k`. -/
theorem lattice_ranges_symmetric (ni nj : Int) (hni : 1 ≤ ni) (hnj : 1 ≤ nj) (i k : Int)
    (hi0 : 0 ≤ i) (hi : i < ni * nj) (hk0 : 0 ≤ k) (hk : k < ni * nj) :
    (∃ l, neighbour_range (lattice ni nj) i = some l ∧ k ∈ l) ↔
      (∃ l, neighbour_range (lattice ni nj) k = some l ∧ i ∈ l) := by
  have hc := lattice_size_cast ni nj (by omega) (by omega)
  have hg := lattice_graphOK ni nj hni hnj
  have hsym := lattice_symmetric ni nj hni hnj
  rw [← hc] at hi hk
  have hri := (graphOK_adj hg i hi0 hi).1
  have hrk := (graphOK_adj hg k hk0 hk).1
  constructor
  · rintro ⟨l, hl, hm⟩
    rw [hri] at hl
    rw [← Option.some.inj hl] at hm
    exact ⟨_, hrk, hsym i k hi0 hi hm⟩
  · rintro ⟨l, hl, hm⟩
    rw [hrk] at hl
    rw [← Option.some.inj hl] at hm
    exact ⟨_, hri, hsym k i hk0 hk hm⟩

/-- On the lattice in exact arithmetic: for `ni, nj ≥ 1` and every vertex `v` below
`ni * nj`, every entry of the neighbour range of `v` is a vertex index in
`[0, ni * nj)` different from `v`, and no index occurs twice in the range. -/
theorem lattice_ranges_simple (ni nj : Int) (_hni : 1 ≤ ni) (hnj : 1 ≤ nj) (v : Int)
    (hv0 : 0 ≤ v) (hv : v < ni * nj) :
    ∃ l, neighbour_range (lattice ni nj) v = some l ∧
      (∀ k ∈ l, 0 ≤ k ∧ k < ni * nj ∧ k ≠ v) ∧ l.Nodup := by
  obtain ⟨i, j, hi0, hi, hj0, hj, rfl⟩ := vertex_coords ni nj v hv0 hv hnj
  exact ⟨_, lattice_range ni nj i j hi0 hi hj0 hj,
    fun k hk => spec_group_bounds ni nj i j k hi0 hi hj0 hj hk,
    spec_group_nodup ni nj i j hj0 hj⟩

theorem mem_iff_at? {α : Type} (l : List α) (x : α) : x ∈ l ↔ ∃ k : Int, at? l k = some x := by
  constructor
  · intro h
    obtain ⟨n, hn, rfl⟩ := List.mem_iff_getElem.mp h
    exact ⟨(n : Int), by rw [at?_natCast, List.getElem?_eq_getElem hn]⟩
  · rintro ⟨k, hk⟩
    unfold at? at hk
    split_ifs at hk
    exact List.getElem?_mem hk

/-- On the lattice in exact arithmetic: for `ni, nj ≥ 1`, the count returned by `color_graph`
on the lattice equals the number of distinct values in the colour array, and the
values occurring in the colour array are exactly `0, 1, ..., colorCount - 1`. -/
theorem lattice_contiguous (ni nj : Int) (hni : 1 ≤ ni) (hnj : 1 ≤ nj) :
    ∃ cc color, color_graph (lattice ni nj) [] = some (cc, color) ∧
      (color.dedup.length : Int) = cc ∧ ∀ c : Int, c ∈ color ↔ 0 ≤ c ∧ c < cc := by
  obtain ⟨cc, color, h1, h2, h3, h4⟩ := lattice_checkerboard ni nj hni hnj
  have h00 : at? color 0 = some 0 := by
    have := h3 0 0 (le_refl _) (by omega) (le_refl _) (by omega)
    simpa using this
  have hmem : ∀ c : Int, c ∈ color ↔ 0 ≤ c ∧ c < cc := by
    intro c
    rw [mem_iff_at?]
    constructor
    · rintro ⟨k, hk⟩
      have hb := at?_some_bounds hk
      rw [h2] at hb
      by_cases hone : ni * nj = 1
      · have hk0 : k = 0 := by omega
        rw [hk0, h00] at hk
        have := Option.some.inj hk
        rw [h4, if_pos hone]
        omega
      · obtain ⟨i, j, hi0, hi, hj0, hj, rfl⟩ := vertex_coords ni nj k hb.1 hb.2 hnj
        rw [h3 i j hi0 hi hj0 hj] at hk
        have := Option.some.inj hk
        rw [h4, if_neg hone]
        omega
    · rintro ⟨hc0, hc⟩
      by_cases hone : ni * nj = 1
      · rw [h4, if_pos hone] at hc
        have : c = 0 := by omega
        subst this
        exact ⟨0, h00⟩
      · rw [h4, if_neg hone] at hc
        have hb := (row_bounds ni nj 0 (le_refl _) (by omega) (by omega)).2
        have hc01 : c = 0 ∨ c = 1 := by omega
        rcases hc01 with rfl | rfl
        · exact ⟨0, h00⟩
        · by_cases hnj1 : nj = 1
          · subst hnj1
            have := h3 1 0 (by omega) (by omega) (le_refl _) (by omega)
            exact ⟨0 + 1 * 1, by simpa using this⟩
          · have := h3 0 1 (le_refl _) (by omega) (by omega) (by omega)
            exact ⟨1 + 0 * nj, by simpa using this⟩
  refine ⟨cc, color, h1, ?_, hmem⟩
  have hfin : color.toFinset = Finset.Ico 0 cc := by
    ext c
    rw [List.mem_toFinset, Finset.mem_Ico]
    exact hmem c
  have hcard := List.card_toFinset color
  rw [hfin, Int.card_Ico] at hcard
  have hcc : 0 ≤ cc := by
    rw [h4]; split_ifs <;> omega
  omega

theorem spec_group_length (ni nj i j : Int) :
    (spec_group ni nj i j).length =
      (if j > 0 then 1 else 0) + (if j < nj - 1 then 1 else 0) +
      (if i < ni - 1 then 1 else 0) + (if i > 0 then 1 else 0) := by
  unfold spec_group
  split_ifs <;> rfl

theorem row_length (ni nj i : Int) (b : Nat) (hb : nj = b) (n : Nat) (hn : n ≤ b) :
    ((List.range n).map (fun (j : Nat) => spec_group ni nj i (j : Int))).flatten.length =
      (n - 1) + min n (b - 1) +
        n * ((if i < ni - 1 then 1 else 0) + (if i > 0 then 1 else 0)) := by
  induction n with
  | zero => simp
  | succ n ih =>
    rw [List.range_succ, List.map_append, List.flatten_append, List.length_append, ih (by omega)]
    simp only [List.map_cons, List.map_nil, List.flatten_cons, List.flatten_nil, List.append_nil,
      spec_group_length, Nat.succ_mul]
    have h1 : (if (n : Int) > 0 then 1 else 0) = (if 0 < n then 1 else 0 : Nat) := by
      split_ifs <;> first | rfl | omega
    have h2 : (if (n : Int) < nj - 1 then 1 else 0) = (if n + 1 < b then 1 else 0 : Nat) := by
      subst hb
      split_ifs <;> first | rfl | omega
    rw [h1, h2]
    split_ifs <;> omega

theorem flatMap_flatten_length (F : Nat → List (List Int)) (a : Nat) :
    ((List.range a).flatMap F).flatten.length =
      ((List.range a).map (fun i => (F i).flatten.length)).sum := by
  induction a with
  | zero => simp
  | succ a ih =>
    rw [List.range_succ, List.flatMap_append, List.flatten_append, List.length_append, ih]
    simp

theorem rows_length (ni nj : Int) (a b : Nat) (ha : ni = a) (hb : nj = b) (hb1 : 1 ≤ b)
    (m : Nat) (hm : m ≤ a) :
    ((List.range m).map (fun (i : Nat) =>
        ((List.range b).map (fun (j : Nat) => spec_group ni nj (i : Int) (j : Int))).flatten.length)).sum =
      m * (2 * (b - 1)) + b * ((m - 1) + min m (a - 1)) := by
  induction m with
  | zero => simp
  | succ m ih =>
    rw [List.range_succ, List.map_append, List.sum_append, ih (by omega)]
    simp only [List.map_cons, List.map_nil, List.sum_cons, List.sum_nil, Nat.add_zero]
    rw [row_length ni nj m b hb b (le_refl _)]
    have h1 : (if (m : Int) < ni - 1 then 1 else 0) = (if m + 1 < a then 1 else 0 : Nat) := by
      subst ha
      split_ifs <;> first | rfl | omega
    have h2 : (if (m : Int) > 0 then 1 else 0) = (if 0 < m then 1 else 0 : Nat) := by
      split_ifs <;> first | rfl | omega
    rw [h1, h2]
    have hmin : min b (b - 1) = b - 1 := by omega
    rw [hmin]
    have e1 : m + 1 - 1 + min (m + 1) (a - 1) =
        (m - 1 + min m (a - 1)) + ((if m + 1 < a then 1 else 0) + (if 0 < m then 1 else 0)) := by
      split_ifs <;> omega
    rw [e1]
    ring

/-- The neighbour list of the lattice has `4 * ni * nj - 2 * (ni + nj)` entries. -/
theorem lattice_neighbours_length (ni nj : Int) (hni : 1 ≤ ni) (hnj : 1 ≤ nj) :
    ((lattice ni nj).neighbours.length : Int) = ni * nj * 4 - 2 * (ni + nj) := by
  obtain ⟨a, rfl⟩ := Int.eq_ofNat_of_zero_le (show 0 ≤ ni by omega)
  obtain ⟨b, rfl⟩ := Int.eq_ofNat_of_zero_le (show 0 ≤ nj by omega)
  have ha : 1 ≤ a := by omega
  have hb : 1 ≤ b := by omega
  have h := rows_length (a : Int) (b : Int) a b rfl rfl hb a (le_refl _)
  have hlen : (lattice (a : Int) (b : Int)).neighbours.length =
      a * (2 * (b - 1)) + b * ((a - 1) + min a (a - 1)) := by
    rw [lattice_eq_csr]
    show (lattice_groups (a : Int) (b : Int)).flatten.length = _
    unfold lattice_groups
    simp only [Int.toNat_ofNat]
    rw [flatMap_flatten_length]
    exact h
  rw [hlen]
  obtain ⟨a, rfl⟩ : ∃ a', a = a' + 1 := ⟨a - 1, by omega⟩
  obtain ⟨b, rfl⟩ : ∃ b', b = b' + 1 := ⟨b - 1, by omega⟩
  have hmin : min (a + 1) (a + 1 - 1) = a := by omega
  rw [hmin]
  simp only [Nat.add_sub_cancel]
  push_cast
  ring

theorem degree_eq {g : my_graph} {N : Nat} (hN : 1 ≤ N) (hw : WellFormed g N) (v : Int)
    (hv0 : 0 ≤ v) (hv : v < N) :
    ∃ a b, at? g.offset v = some a ∧ at? g.offset (v + 1) = some b ∧ a ≤ b ∧
      ((adj g v).length : Int) = b - a := by
  obtain ⟨x, y, hx, hy, hxy⟩ := hw.2.2.1 v hv0 hv
  obtain ⟨hr, _⟩ := graphOK_adj (wellFormed_graphOK hw hN) v hv0 hv
  obtain ⟨a, b, ha, hb, hl⟩ := neighbour_range_some hr
  rw [hx] at ha
  rw [hy] at hb
  have e1 := Option.some.inj ha
  have e2 := Option.some.inj hb
  subst e1 e2
  have := (range_loop_length g _ _ _ hl).1
  exact ⟨x, y, hx, hy, hxy, by omega⟩

theorem lattice_degree (ni nj i j : Int) (hi0 : 0 ≤ i) (hi : i < ni) (hj0 : 0 ≤ j) (hj : j < nj) :
    ∃ a b, at? (lattice ni nj).offset (j + i * nj) = some a ∧
      at? (lattice ni nj).offset (j + i * nj + 1) = some b ∧
      b - a = ((spec_group ni nj i j).length : Int) := by
  have hni : 1 ≤ ni := by omega
  have hnj : 1 ≤ nj := by omega
  have hc := lattice_size_cast ni nj (by omega) (by omega)
  have hb := row_bounds ni nj i hi0 hi (by omega)
  obtain ⟨a, b, ha, hb, _, hd⟩ := degree_eq (lattice_graphOK ni nj hni hnj).1
    (lattice_wellFormed ni nj hni hnj) (j + i * nj) (by omega) (by rw [hc]; omega)
  rw [lattice_adj ni nj i j hi0 hi hj0 hj] at hd
  exact ⟨a, b, ha, hb, hd.symm⟩

/-- The degree of a lattice vertex is between 0 and 4, and at least 2 on lattices with
at least two rows and two columns. -/
theorem lattice_degree_bounds (ni nj : Int) (hnj : 1 ≤ nj) (v : Int)
    (hv0 : 0 ≤ v) (hv : v < ni * nj) :
    ∃ a b, at? (lattice ni nj).offset v = some a ∧ at? (lattice ni nj).offset (v + 1) = some b ∧
      0 ≤ b - a ∧ b - a ≤ 4 ∧ (2 ≤ ni → 2 ≤ nj → 2 ≤ b - a) := by
  obtain ⟨i, j, hi0, hi, hj0, hj, rfl⟩ := vertex_coords ni nj v hv0 hv hnj
  obtain ⟨a, b, ha, hb, hd⟩ := lattice_degree ni nj i j hi0 hi hj0 hj
  refine ⟨a, b, ha, hb, ?_⟩
  rw [hd, spec_group_length]
  refine ⟨by omega, ?_, ?_⟩
  · split_ifs <;> simp
  · intro h2i h2j
    split_ifs <;> push_cast <;> omega

/-- A value inside the range of `int` is stored unchanged. -/
theorem wrap32_of_range (x : Int) (h0 : -2147483648 ≤ x) (h1 : x ≤ 2147483647) :
    wrap32 x = x := by
  unfold wrap32
  norm_num
  omega

theorem foldl_congr_mem {α β : Type} (f g : α → β → α) (xs : List β)
    (h : ∀ a, ∀ x ∈ xs, f a x = g a x) (a : α) : xs.foldl f a = xs.foldl g a := by
  induction xs generalizing a with
  | nil => rfl
  | cons x xs ih =>
    rw [List.foldl_cons, List.foldl_cons, h a x (List.mem_cons_self _ _)]
    exact ih (fun a y hy => h a y (List.mem_cons_of_mem _ hy)) _

theorem foldl_groups_map (w : Int → Int) {X : Type} (F : X → List (List Int)) (xs : List X)
    (g0 : my_graph) :
    xs.foldl (fun acc x => ({ neighbours := acc.neighbours ++ (F x).flatten,
                              offset := acc.offset ++ (offs acc.neighbours.length (F x)).map w } :
                              my_graph)) g0
      = { neighbours := g0.neighbours ++ (xs.flatMap F).flatten,
          offset := g0.offset ++ (offs g0.neighbours.length (xs.flatMap F)).map w } := by
  induction xs generalizing g0 with
  | nil => simp [offs]
  | cons x xs ih =>
    rw [List.foldl_cons, ih]
    simp [offs_append, List.flatMap_cons]

theorem offs_bounds (s : Nat) (L : List (List Int)) :
    ∀ x ∈ offs s L, (s : Int) ≤ x ∧ x ≤ ((s + L.flatten.length : Nat) : Int) := by
  induction L generalizing s with
  | nil => intro x hx; simp [offs] at hx
  | cons l L ih =>
    intro x hx
    simp only [offs, List.mem_cons] at hx
    rcases hx with rfl | hx
    · exact ⟨le_refl _, by push_cast; omega⟩
    · have := ih (s + l.length) x hx
      simp only [List.flatten_cons, List.length_append]
      push_cast at this ⊢
      omega

/-- Inside the range where `ni * nj * 4` fits an `int`, no operation of the loop body
wraps: the body appends the neighbour group `spec_group` of the vertex. -/
theorem generate_graph_body_eq (ni nj : Int) (hni : 1 ≤ ni) (hnj : 1 ≤ nj)
    (hr : ni * nj * 4 ≤ 2 ^ 31 - 1) (ans : my_graph) (i j : Int) (hi0 : 0 ≤ i) (hi : i < ni)
    (hj0 : 0 ≤ j) (hj : j < nj) :
    generate_graph_body ni nj ans i j =
      { neighbours := ans.neighbours ++ spec_group ni nj i j,
        offset := ans.offset ++ [wrap32 (ans.neighbours.length : Int)] } := by
  have hb := row_bounds ni nj i hi0 hi (by omega)
  have hn : ni ≤ ni * nj := by
    have := (row_bounds nj ni 0 (le_refl _) (by omega) (by omega)).2
    rw [mul_comm nj ni] at this
    omega
  have hm : nj ≤ ni * nj := by
    have := (row_bounds ni nj 0 (le_refl _) (by omega) (by omega)).2
    omega
  norm_num at hr
  have w1 : wrap32 (i * nj) = i * nj := wrap32_of_range _ (by omega) (by omega)
  have w2 : wrap32 (j + i * nj) = j + i * nj :=
    wrap32_of_range _ (by omega) (by omega)
  have w3 : wrap32 (j + i * nj - 1) = j + i * nj - 1 :=
    wrap32_of_range _ (by omega) (by omega)
  have w4 : wrap32 (j + i * nj + 1) = j + i * nj + 1 :=
    wrap32_of_range _ (by omega) (by omega)
  have w5 : wrap32 (j + i * nj + nj) = j + i * nj + nj :=
    wrap32_of_range _ (by omega) (by omega)
  have w6 : wrap32 (j + i * nj - nj) = j + i * nj - nj :=
    wrap32_of_range _ (by omega) (by omega)
  have w7 : wrap32 (nj - 1) = nj - 1 := wrap32_of_range _ (by omega) (by omega)
  have w8 : wrap32 (ni - 1) = ni - 1 := wrap32_of_range _ (by omega) (by omega)
  unfold generate_graph_body spec_group
  simp only [w1, w2, w3, w4, w5, w6, w7, w8]
  split_ifs <;> simp

/-- Inside the range where `ni * nj * 4` fits an `int`, the inner loop appends the
neighbour groups of row `i` and records the running lengths. -/
theorem generate_graph_row_eq (ni nj : Int) (hni : 1 ≤ ni) (hnj : 1 ≤ nj)
    (hr : ni * nj * 4 ≤ 2 ^ 31 - 1) (ans : my_graph) (i : Int) (hi0 : 0 ≤ i) (hi : i < ni) :
    generate_graph_row ni nj ans i =
      { neighbours := ans.neighbours ++
          ((List.range nj.toNat).map (fun (j : Nat) => spec_group ni nj i (j : Int))).flatten,
        offset := ans.offset ++ (offs ans.neighbours.length
          ((List.range nj.toNat).map (fun (j : Nat) => spec_group ni nj i (j : Int)))).map wrap32 } := by
  unfold generate_graph_row
  rw [foldl_congr_mem _
    (fun acc (j : Nat) =>
      ({ neighbours := acc.neighbours ++ List.flatten [spec_group ni nj i (j : Int)]
         offset := acc.offset ++
           (offs acc.neighbours.length [spec_group ni nj i (j : Int)]).map wrap32 } : my_graph))]
  · have h := foldl_groups_map wrap32 (fun j : Nat => [spec_group ni nj i (j : Int)])
      (List.range nj.toNat) ans
    have e : ∀ xs : List Nat, xs.flatMap (fun j : Nat => [spec_group ni nj i (j : Int)])
        = xs.map (fun j : Nat => spec_group ni nj i (j : Int)) := by
      intro xs
      induction xs with
      | nil => rfl
      | cons x xs ih => simp [List.flatMap_cons, ih]
    rw [e] at h
    exact h
  · intro acc j hj
    have hj' := List.mem_range.mp hj
    rw [generate_graph_body_eq ni nj hni hnj hr acc i j hi0 hi (by omega) (by omega)]
    simp [offs]

/-- Inside the range where `ni * nj * 4` fits an `int`, no operation of the capacity
expression wraps. -/
theorem reserve_capacity32_eq (ni nj : Int) (hni : 1 ≤ ni) (hnj : 1 ≤ nj)
    (hr : ni * nj * 4 ≤ 2 ^ 31 - 1) :
    reserve_capacity32 ni nj = ni * nj * 4 - 2 * (ni + nj) := by
  have hn : ni ≤ ni * nj := by
    have := (row_bounds nj ni 0 (le_refl _) (by omega) (by omega)).2
    rw [mul_comm nj ni] at this
    omega
  have hm : nj ≤ ni * nj := by
    have := (row_bounds ni nj 0 (le_refl _) (by omega) (by omega)).2
    omega
  norm_num at hr
  unfold reserve_capacity32
  rw [wrap32_of_range (ni * nj) (by omega) (by omega),
    wrap32_of_range (ni * nj * 4) (by omega) (by omega),
    wrap32_of_range (ni + nj) (by omega) (by omega),
    wrap32_of_range (2 * (ni + nj)) (by omega) (by omega),
    wrap32_of_range _ (by omega) (by omega)]

/-- Inside the range where `ni * nj * 4` fits an `int`, `generate_graph` on an empty graph
does not throw and returns the lattice in exact arithmetic. -/
theorem generate_graph_eq_lattice (ni nj : Int) (hni : 1 ≤ ni) (hnj : 1 ≤ nj)
    (hr : ni * nj * 4 ≤ 2 ^ 31 - 1) :
    generate_graph ni nj { neighbours := [], offset := [] } = some (lattice ni nj) := by
  have hlen := lattice_neighbours_length ni nj hni hnj
  have hn : ni ≤ ni * nj := by
    have := (row_bounds nj ni 0 (le_refl _) (by omega) (by omega)).2
    rw [mul_comm nj ni] at this
    omega
  have hm : nj ≤ ni * nj := by
    have := (row_bounds ni nj 0 (le_refl _) (by omega) (by omega)).2
    omega
  have hr' := hr
  norm_num at hr'
  have c1 : wrap32 (ni * nj) = ni * nj := wrap32_of_range _ (by omega) (by omega)
  have c2 := reserve_capacity32_eq ni nj hni hnj hr
  unfold generate_graph
  rw [if_neg (by rw [c1]; omega), if_neg (by rw [c2]; omega)]
  have hrows : (List.range ni.toNat).foldl
      (fun acc (i : Nat) => generate_graph_row ni nj acc (i : Int))
      { neighbours := [], offset := [] } =
      { neighbours := (lattice_groups ni nj).flatten,
        offset := (offs 0 (lattice_groups ni nj)).map wrap32 } := by
    rw [foldl_congr_mem _
      (fun acc (i : Nat) =>
        ({ neighbours := acc.neighbours ++ List.flatten ((List.range nj.toNat).map
             (fun (j : Nat) => spec_group ni nj (i : Int) (j : Int)))
           offset := acc.offset ++ (offs acc.neighbours.length
             ((List.range nj.toNat).map
               (fun (j : Nat) => spec_group ni nj (i : Int) (j : Int)))).map wrap32 } : my_graph))]
    · rw [foldl_groups_map wrap32
        (fun i : Nat => (List.range nj.toNat).map
          (fun (j : Nat) => spec_group ni nj (i : Int) (j : Int)))]
      simp [lattice_groups]
    · intro acc i hi
      have hi' := List.mem_range.mp hi
      exact generate_graph_row_eq ni nj hni hnj hr acc i (by omega) (by omega)
  simp only [hrows]
  have htot : ((lattice_groups ni nj).flatten.length : Int) ≤ 2147483647 := by
    have : ((lattice ni nj).neighbours.length : Int) = ni * nj * 4 - 2 * (ni + nj) := hlen
    have e : (lattice ni nj).neighbours = (lattice_groups ni nj).flatten := rfl
    rw [e] at this
    omega
  have hoff : (offs 0 (lattice_groups ni nj)).map wrap32 = offs 0 (lattice_groups ni nj) := by
    conv_rhs => rw [← List.map_id (offs 0 (lattice_groups ni nj))]
    apply List.map_congr_left
    intro x hx
    have := offs_bounds 0 (lattice_groups ni nj) x hx
    simp only [id]
    apply wrap32_of_range
    · omega
    · have h2 := this.2
      rw [Nat.zero_add] at h2
      omega
  rw [hoff, wrap32_of_range _ (by omega) (by omega)]
  rfl

/-- At 32768 x 32768 the capacity expression wraps to a negative `int` and the second
`reserve` of `generate_graph` throws. -/
theorem generate_graph_throws :
    generate_graph 32768 32768 { neighbours := [], offset := [] } = none := by
  decide

/-- C12 fails on the code: for `ni = nj = 32768`, which passes the bound
`ni * nj ≤ 2^31 - 1` of `main`, the exact value of the capacity expression is 4294836224,
above `2^31 - 1`; in 32-bit arithmetic the expression wraps to -131072 and
`generate_graph` throws in its second `reserve`. The last offset entry of the lattice in
exact arithmetic, the length 4294836224 of the neighbour sequence, does not fit an `int`
either: narrowed to `int` it is -131072. -/
theorem int_range_not_sufficient :
    (1 : Int) ≤ 32768 ∧ (32768 : Int) * 32768 ≤ 2 ^ 31 - 1 ∧
    reserve_capacity 32768 32768 = 4294836224 ∧
    (2 : Int) ^ 31 - 1 < reserve_capacity 32768 32768 ∧
    reserve_capacity32 32768 32768 = -131072 ∧
    at? (lattice 32768 32768).offset (32768 * 32768) = some 4294836224 ∧
    wrap32 4294836224 = -131072 ∧
    generate_graph 32768 32768 { neighbours := [], offset := [] } = none := by
  have hlen := lattice_neighbours_length 32768 32768 (by decide) (by decide)
  have hw := lattice_wellFormed 32768 32768 (by decide) (by decide)
  have hc := lattice_size_cast 32768 32768 (by decide) (by decide)
  refine ⟨by decide, by decide, by decide, by decide, by decide, ?_, by decide, by decide⟩
  have h := hw.2.2.2.1
  rw [hc, hlen] at h
  rw [h]
  norm_num

theorem cells_loop_eq {g : my_graph} {N : Nat} (hg : GraphOK g N) (n i0 : Nat)
    (h : i0 + n ≤ N) :
    cells_loop g n (i0 : Int) =
      some ((List.range n).flatMap (fun (t : Nat) => cells_at g ((i0 + t : Nat) : Int))) := by
  induction n generalizing i0 with
  | zero => rfl
  | succ n ih =>
    have hr := (graphOK_adj hg (i0 : Int) (by omega) (by omega)).1
    have e : ((i0 : Int) + 1) = ((i0 + 1 : Nat) : Int) := by push_cast; rfl
    simp only [cells_loop, cells_of, hr, Option.map_some', e, ih (i0 + 1) (by omega)]
    rw [List.range_succ_eq_map, List.flatMap_cons, List.flatMap_map]
    simp only [cells_at, Nat.add_zero, Function.comp_def, Nat.succ_eq_add_one]
    congr 2
    simp only [Nat.add_right_comm i0 1, Nat.add_assoc]

theorem export_cells_eq {g : my_graph} {N : Nat} (hg : GraphOK g N) :
    export_cells g = some ((List.range N).flatMap (fun (t : Nat) => cells_at g (t : Int))) := by
  have h := cells_loop_eq hg N 0 (by omega)
  unfold export_cells
  rw [graphOK_size hg]
  simpa using h

theorem mem_cells_at (g : my_graph) (v x y : Int) :
    (x, y) ∈ cells_at g v ↔ x = v ∧ y ∈ adj g v ∧ v > y := by
  simp only [cells_at, List.mem_map, List.mem_filter, decide_eq_true_eq, Prod.mk.injEq]
  constructor
  · rintro ⟨k, ⟨h1, h2⟩, rfl, rfl⟩
    exact ⟨rfl, h1, h2⟩
  · rintro ⟨rfl, h1, h2⟩
    exact ⟨y, ⟨h1, h2⟩, rfl, rfl⟩

theorem mem_cells {g : my_graph} {N : Nat} (x y : Int) :
    (x, y) ∈ (List.range N).flatMap (fun (t : Nat) => cells_at g (t : Int)) ↔
      0 ≤ x ∧ x < N ∧ y ∈ adj g x ∧ x > y := by
  simp only [List.mem_flatMap, List.mem_range, mem_cells_at]
  constructor
  · rintro ⟨t, ht, rfl, h1, h2⟩
    exact ⟨by omega, by omega, h1, h2⟩
  · rintro ⟨h0, h1, h2, h3⟩
    exact ⟨x.toNat, by omega, by omega, by rwa [Int.toNat_of_nonneg h0],
      by rwa [Int.toNat_of_nonneg h0]⟩

theorem cells_nodup {g : my_graph} {N : Nat} (hnd : ∀ v : Int, 0 ≤ v → v < N → (adj g v).Nodup) :
    ((List.range N).flatMap (fun (t : Nat) => cells_at g (t : Int))).Nodup := by
  rw [List.nodup_flatMap]
  constructor
  · intro t ht
    have ht' := List.mem_range.mp ht
    unfold cells_at
    refine List.Nodup.map ?_ ((hnd t (by omega) (by omega)).filter _)
    intro a b hab
    exact (Prod.mk.inj hab).2
  · refine (List.nodup_range N).pairwise_of_forall_ne ?_
    intro s _ t _ hst
    show List.Disjoint (cells_at g (s : Int)) (cells_at g (t : Int))
    intro p hp1 hp2
    obtain ⟨x, y⟩ := p
    have h1 := ((mem_cells_at g _ x y).mp hp1).1
    have h2 := ((mem_cells_at g _ x y).mp hp2).1
    omega

theorem count_eq_one_of_nodup_mem {α : Type} [BEq α] [LawfulBEq α] (l : List α) (a : α)
    (hnd : l.Nodup) (hm : a ∈ l) : l.count a = 1 := by
  induction l with
  | nil => exact absurd hm (List.not_mem_nil _)
  | cons x xs ih =>
    rw [List.nodup_cons] at hnd
    rw [List.count_cons]
    by_cases e : x = a
    · subst e
      have : List.count x xs = 0 := List.count_eq_zero.mpr hnd.1
      simp [this]
    · have hm2 : a ∈ xs := by
        rcases List.mem_cons.mp hm with h | h
        · exact absurd h.symm e
        · exact h
      have hbeq : (x == a) = false := by
        rw [beq_eq_false_iff_ne]; exact e
      simp [ih hnd.2 hm2, hbeq]

theorem cells_at_lattice_length (ni nj i j : Int) (hi0 : 0 ≤ i) (hi : i < ni) (hj0 : 0 ≤ j)
    (hj : j < nj) :
    (cells_at (lattice ni nj) (j + i * nj)).length =
      (if j > 0 then 1 else 0) + (if i > 0 then 1 else 0) := by
  unfold cells_at
  rw [List.length_map, lattice_adj ni nj i j hi0 hi hj0 hj]
  unfold spec_group
  have hnj : 0 < nj := by omega
  have hnj2 : ¬ nj < 0 := by omega
  split_ifs <;> simp [List.filter, hnj, hnj2]

theorem sum_range_mul (F : Nat → Nat) (a b : Nat) :
    ((List.range (a * b)).map F).sum =
      ((List.range a).map (fun i => ((List.range b).map (fun j => F (i * b + j))).sum)).sum := by
  induction a with
  | zero => simp
  | succ a ih =>
    rw [Nat.succ_mul, List.range_add, List.map_append, List.sum_append, ih, List.range_succ,
      List.map_append, List.sum_append, List.map_map]
    simp [Function.comp_def]

theorem length_flatMap_range {α : Type} (F : Nat → List α) (n : Nat) :
    ((List.range n).flatMap F).length = ((List.range n).map (fun t => (F t).length)).sum := by
  induction n with
  | zero => simp
  | succ n ih =>
    rw [List.range_succ, List.flatMap_append, List.length_append, ih]
    simp

theorem cells_row_sum (c n : Nat) :
    ((List.range n).map (fun (j : Nat) => (if (j : Int) > 0 then 1 else 0) + c)).sum =
      (n - 1) + n * c := by
  induction n with
  | zero => simp
  | succ n ih =>
    rw [List.range_succ, List.map_append, List.sum_append, ih, Nat.succ_mul]
    simp only [List.map_cons, List.map_nil, List.sum_cons, List.sum_nil]
    have h1 : (if (n : Int) > 0 then 1 else 0) = (if 0 < n then 1 else 0 : Nat) := by
      split_ifs <;> first | rfl | omega
    rw [h1]
    split_ifs <;> omega

theorem cells_rows_sum (b m : Nat) :
    ((List.range m).map (fun (i : Nat) => (b - 1) + b * (if (i : Int) > 0 then 1 else 0))).sum =
      m * (b - 1) + b * (m - 1) := by
  induction m with
  | zero => simp
  | succ m ih =>
    rw [List.range_succ, List.map_append, List.sum_append, ih, Nat.succ_mul]
    simp only [List.map_cons, List.map_nil, List.sum_cons, List.sum_nil]
    have h1 : (if (m : Int) > 0 then 1 else 0) = (if 0 < m then 1 else 0 : Nat) := by
      split_ifs <;> first | rfl | omega
    rw [h1]
    by_cases hm : 0 < m
    · have e : m + 1 - 1 = (m - 1) + 1 := by omega
      rw [if_pos hm, e, Nat.mul_add]
      omega
    · have e : m = 0 := by omega
      subst e
      simp

/-- The lattice prints `ni * (nj - 1) + nj * (ni - 1)` cells. -/
theorem lattice_cells_length (a b : Nat) :
    ((List.range (a * b)).flatMap (fun (t : Nat) => cells_at (lattice a b) (t : Int))).length =
      a * (b - 1) + b * (a - 1) := by
  rw [length_flatMap_range, sum_range_mul]
  have hrow : ∀ i ∈ List.range a,
      ((List.range b).map (fun j => (cells_at (lattice a b) ((i * b + j : Nat) : Int)).length)).sum =
        (b - 1) + b * (if (i : Int) > 0 then 1 else 0) := by
    intro i hi
    have hi' := List.mem_range.mp hi
    have hcell : ∀ j ∈ List.range b,
        (cells_at (lattice a b) ((i * b + j : Nat) : Int)).length =
          (if (j : Int) > 0 then 1 else 0) + (if (i : Int) > 0 then 1 else 0) := by
      intro j hj
      have hj' := List.mem_range.mp hj
      have e : ((i * b + j : Nat) : Int) = (j : Int) + (i : Int) * (b : Int) := by push_cast; ring
      rw [e]
      exact cells_at_lattice_length a b i j (by omega) (by omega) (by omega) (by omega)
    rw [List.map_congr_left hcell, cells_row_sum]
  rw [List.map_congr_left hrow, cells_rows_sum]

/-- On the lattice in exact arithmetic: for `ni, nj ≥ 1` the loop of `main` prints
exactly the pairs `(i, k)` with `k` in the neighbour range of `i` and `i > k`; their
number is `len(neighbours) / 2`, the count announced in the headers; no pair is printed
twice; and for adjacent `i`, `k` the pair `(max i k, min i k)` is printed exactly once and
the reversed pair never. -/
theorem lattice_cells_once (ni nj : Int) (hni : 1 ≤ ni) (hnj : 1 ≤ nj) :
    ∃ cells, export_cells (lattice ni nj) = some cells ∧
      cells.length = cells_announced (lattice ni nj) ∧
      cells_announced (lattice ni nj) = (lattice ni nj).neighbours.length / 2 ∧
      (∀ i k : Int, (i, k) ∈ cells ↔ 0 ≤ i ∧ i < ni * nj ∧ k ∈ adj (lattice ni nj) i ∧ i > k) ∧
      cells.Nodup ∧
      ∀ i k : Int, 0 ≤ i → i < ni * nj → k ∈ adj (lattice ni nj) i →
        cells.count (max i k, min i k) = 1 ∧ cells.count (min i k, max i k) = 0 := by
  have hc := lattice_size_cast ni nj (by omega) (by omega)
  have hg := lattice_graphOK ni nj hni hnj
  have hmem : ∀ i k : Int, (i, k) ∈ (List.range (lattice_size ni nj)).flatMap
        (fun (t : Nat) => cells_at (lattice ni nj) (t : Int)) ↔
      0 ≤ i ∧ i < ni * nj ∧ k ∈ adj (lattice ni nj) i ∧ i > k := by
    intro i k
    rw [mem_cells, hc]
  have hnd : ((List.range (lattice_size ni nj)).flatMap
      (fun (t : Nat) => cells_at (lattice ni nj) (t : Int))).Nodup := by
    apply cells_nodup
    intro v h0 hv
    rw [hc] at hv
    obtain ⟨i, j, hi0, hi, hj0, hj, rfl⟩ := vertex_coords ni nj v h0 hv hnj
    rw [lattice_adj ni nj i j hi0 hi hj0 hj]
    exact spec_group_nodup ni nj i j hj0 hj
  refine ⟨_, export_cells_eq hg, ?_, rfl, hmem, hnd, ?_⟩
  · obtain ⟨a, rfl⟩ := Int.eq_ofNat_of_zero_le (show 0 ≤ ni by omega)
    obtain ⟨b, rfl⟩ := Int.eq_ofNat_of_zero_le (show 0 ≤ nj by omega)
    have ha : 1 ≤ a := by omega
    have hb : 1 ≤ b := by omega
    have hl := lattice_neighbours_length a b hni hnj
    have hsz : lattice_size (a : Int) (b : Int) = a * b := by simp [lattice_size]
    rw [hsz, lattice_cells_length a b]
    unfold cells_announced
    have h2 : (lattice (a : Int) (b : Int)).neighbours.length = 2 * (a * (b - 1) + b * (a - 1)) := by
      obtain ⟨a, rfl⟩ : ∃ a', a = a' + 1 := ⟨a - 1, by omega⟩
      obtain ⟨b, rfl⟩ : ∃ b', b = b' + 1 := ⟨b - 1, by omega⟩
      simp only [Nat.add_sub_cancel]
      have : ((lattice ((a + 1 : Nat) : Int) ((b + 1 : Nat) : Int)).neighbours.length : Int) =
          ((2 * ((a + 1) * b + (b + 1) * a) : Nat) : Int) := by
        rw [hl]; push_cast; ring
      exact_mod_cast this
    rw [h2, Nat.mul_div_cancel_left _ (by omega : 0 < 2)]
  · intro i k hi0 hi hk
    have hi' : i < (lattice_size ni nj : Int) := by rw [hc]; exact hi
    have hkb := (graphOK_adj hg i hi0 hi').2 k hk
    have hne : k ≠ i := by
      intro e
      rw [e] at hk
      exact lattice_loopFree ni nj hni hnj i hi0 hi' hk
    have hsym := lattice_symmetric ni nj hni hnj i k hi0 hi' hk
    rw [hc] at hkb
    constructor
    · apply count_eq_one_of_nodup_mem _ _ hnd
      rw [hmem]
      by_cases hlt : k < i
      · rw [max_eq_left (le_of_lt hlt), min_eq_right (le_of_lt hlt)]
        exact ⟨hi0, hi, hk, hlt⟩
      · have hlt' : i < k := by omega
        rw [max_eq_right (le_of_lt hlt'), min_eq_left (le_of_lt hlt')]
        exact ⟨hkb.1, hkb.2, hsym, hlt'⟩
    · rw [List.count_eq_zero, hmem]
      rintro ⟨_, _, _, h⟩
      have h1 := min_le_max (a := i) (b := k)
      omega

theorem color_trace_state (g : my_graph) (fuel : Nat) (st : State) (pops marks : List Int) :
    (color_trace g fuel st pops marks).map (fun r => r.1) = color_loop g fuel st := by
  induction fuel generalizing st pops marks with
  | zero => rfl
  | succ fuel ih =>
    cases hq : st.queue with
    | nil => simp [color_trace, color_loop, hq]
    | cons i q =>
      cases hc : color_iter g i { st with queue := q } with
      | none => simp [color_trace, color_loop, hq, hc]
      | some st1 =>
        simp only [color_trace, color_loop, hq, hc]
        exact ih _ _ _

/-- A property of the state and the ghost records that every round preserves, under a
quantity that every round decreases, holds when the loop stops, and the loop does stop
within any budget above that quantity. -/
theorem color_trace_inv (g : my_graph) (P : State → List Int → List Int → Prop)
    (m : State → Nat)
    (hstep : ∀ st pops marks i q, P st pops marks → st.queue = i :: q →
      ∃ st1, color_iter g i { st with queue := q } = some st1 ∧
        P st1 (pops ++ [i]) (marks_after st i marks) ∧ m st1 < m st) :
    ∀ (fuel : Nat) (st : State) (pops marks : List Int), P st pops marks → m st < fuel →
      ∃ st1 pops1 marks1, color_trace g fuel st pops marks = some (st1, pops1, marks1) ∧
        P st1 pops1 marks1 ∧ st1.queue = [] := by
  intro fuel
  induction fuel with
  | zero => intro st _ _ _ h; omega
  | succ fuel ih =>
    intro st pops marks hP hm
    cases hq : st.queue with
    | nil => exact ⟨st, pops, marks, by simp [color_trace, hq], hP, hq⟩
    | cons i q =>
      obtain ⟨st1, h1, h2, h3⟩ := hstep st pops marks i q hP hq
      obtain ⟨st2, pops2, marks2, h4, h5, h6⟩ := ih st1 _ _ h2 (by omega)
      refine ⟨st2, pops2, marks2, ?_, h5, h6⟩
      simp only [color_trace, hq, h1]
      exact h4

/-- The run of `color_graph` on a fresh result array, with its ghost records: it returns,
its final state is reachable, satisfies the loop invariant, has an empty queue, and
satisfies any further property of state and records that the rounds preserve. -/
theorem color_graph_trace_run {g : my_graph} {N : Nat} (hg : GraphOK g N)
    (E : State → List Int → List Int → Prop) (hE0 : E (init_state g []) [] [])
    (hEstep : ∀ st st1 pops marks i q, Inv g N st → E st pops marks → st.queue = i :: q →
      StepSpec g i q st st1 → E st1 (pops ++ [i]) (marks_after st i marks)) :
    ∃ st pops marks, color_graph_trace g = some (st, pops, marks) ∧
      color_graph g [] = some (st.colors_used, st.ans) ∧ Reachable g st ∧ Inv g N st ∧
      E st pops marks ∧ st.queue = [] := by
  have hstep : ∀ st pops marks i q, (Reachable g st ∧ Inv g N st ∧ E st pops marks) →
      st.queue = i :: q →
      ∃ st1, color_iter g i { st with queue := q } = some st1 ∧
        (Reachable g st1 ∧ Inv g N st1 ∧ E st1 (pops ++ [i]) (marks_after st i marks)) ∧
        work_left g st1 < work_left g st := by
    intro st pops marks i q ⟨hr, hinv, hE⟩ hq
    obtain ⟨st1, h1, h2⟩ := color_iter_spec hg hinv hq
    obtain ⟨h3, h4⟩ := inv_step hg hinv hq h2
    exact ⟨st1, h1, ⟨Reachable.step hr hq h1, h3, hEstep st st1 pops marks i q hinv hE hq h2⟩, h4⟩
  obtain ⟨st, pops, marks, h1, ⟨h2, h3, h4⟩, h5⟩ := color_trace_inv g
    (fun st pops marks => Reachable g st ∧ Inv g N st ∧ E st pops marks) (work_left g) hstep
    _ (init_state g []) [] [] ⟨Reachable.init, init_inv hg, hE0⟩ (init_work_left hg)
  refine ⟨st, pops, marks, h1, ?_, h2, h3, h4, h5⟩
  have h6 := color_trace_state g (g.size * (g.neighbours.length + 1) + 2) (init_state g []) [] []
  rw [h1] at h6
  simp only [Option.map_some'] at h6
  simp [color_graph, ← h6]

theorem step_used_ans {g : my_graph} {N : Nat} {st st1 : State} (hinv : Inv g N st)
    {i : Int} {q : List Int} (hq : st.queue = i :: q) (hs : StepSpec g i q st st1) :
    (∀ k, at? st1.used k = if k = i then some true else at? st.used k) ∧
    (∀ k, k ≠ i → at? st1.ans k = at? st.ans k) ∧
    (at? st.used i = some true → st1.ans = st.ans) := by
  have hi := hinv.queue_bd i (by rw [hq]; exact List.mem_cons_self _ _)
  have hul : i < st.used.length := by rw [hinv.used_len]; exact hi.2
  have hal : i < st.ans.length := by rw [hinv.ans_len]; exact hi.2
  rcases hs with ⟨hu, rfl⟩ | ⟨hu, c, hans, hused, _⟩
  · refine ⟨?_, fun _ _ => rfl, fun _ => rfl⟩
    intro k
    by_cases e : k = i
    · rw [if_pos e, e]; exact hu
    · rw [if_neg e]
  · refine ⟨?_, ?_, ?_⟩
    · intro k; rw [hused]; exact at?_set _ _ _ _ hi.1 hul
    · intro k hk; rw [hans, at?_set _ _ _ _ hi.1 hal, if_neg hk]
    · intro h; rw [hu] at h; exact absurd h (by simp)

theorem marks_step {g : my_graph} {N : Nat} {st st1 : State} (hinv : Inv g N st)
    {marks : List Int} (hm : MarksOK st marks) {i : Int} {q : List Int}
    (hq : st.queue = i :: q) (hs : StepSpec g i q st st1) :
    MarksOK st1 (marks_after st i marks) := by
  obtain ⟨hU, _, _⟩ := step_used_ans hinv hq hs
  have hi := hinv.queue_bd i (by rw [hq]; exact List.mem_cons_self _ _)
  unfold marks_after
  rcases used_cases hinv i hi.1 hi.2 with hu | hu
  · rw [hu, if_neg (by simp)]
    refine ⟨hm.1, fun v => ?_⟩
    rw [hm.2, hU]
    by_cases e : v = i
    · rw [if_pos e, e, hu]
    · rw [if_neg e]
  · rw [hu, if_pos rfl]
    have hni : i ∉ marks := by
      intro h
      have := (hm.2 i).mp h
      rw [hu] at this
      exact absurd this (by simp)
    refine ⟨List.Nodup.append hm.1 (List.nodup_singleton i) ?_, fun v => ?_⟩
    · intro x hx hx2
      rw [List.mem_singleton] at hx2
      subst hx2
      exact hni hx
    · rw [List.mem_append, List.mem_singleton, hm.2, hU]
      by_cases e : v = i
      · rw [if_pos e]; simp [e]
      · rw [if_neg e]; simp [e]

theorem marks_init (g : my_graph) : MarksOK (init_state g []) [] := by
  refine ⟨List.nodup_nil, fun v => ?_⟩
  constructor
  · intro h; exact absurd h (List.not_mem_nil _)
  · intro h
    have hused : (init_state g []).used = List.replicate g.size false := rfl
    rw [hused] at h
    exact absurd (at?_replicate _ _ _ _ h) (by simp)

theorem pairwise_head_le (d : Int → Int) (q0 : Int) (rest : List Int)
    (h : (q0 :: rest).Pairwise (fun a b => d a ≤ d b)) : ∀ x ∈ q0 :: rest, d q0 ≤ d x := by
  intro x hx
  rcases List.mem_cons.mp hx with rfl | hx
  · exact le_refl _
  · exact (List.pairwise_cons.mp h).1 x hx

/-- The vertices below the level of the new queue head are all marked. -/
theorem bfs_head {g : my_graph} {N : Nat} {d : Int → Int} (hd : LevelFn g N d) {st st1 : State}
    (hinv : Inv g N st) {i : Int} {q : List Int} (hq : st.queue = i :: q)
    (hold : ∀ v : Int, 0 ≤ v → v < N → d v < d i → at? st.used v = some true)
    (hU : ∀ k, at? st1.used k = if k = i then some true else at? st.used k)
    (hsorted : st1.queue.Pairwise (fun a b => d a ≤ d b))
    (hsub : ∀ x ∈ q, x ∈ st1.queue)
    (hrange : ∀ x ∈ st1.queue, d x ≤ d i + 1) :
    ∀ q0 rest, st1.queue = q0 :: rest →
      ∀ v : Int, 0 ≤ v → v < N → d v < d q0 → at? st1.used v = some true := by
  intro q0 rest hq1 v hv0 hv hlt
  have hmono : ∀ k, at? st.used k = some true → at? st1.used k = some true := by
    intro k hk
    rw [hU]
    by_cases e : k = i
    · rw [if_pos e]
    · rw [if_neg e]; exact hk
  have hq0 : d q0 ≤ d i + 1 := hrange q0 (by rw [hq1]; exact List.mem_cons_self _ _)
  have hhead : ∀ x ∈ q, d q0 ≤ d x := by
    intro x hx
    have := hsub x hx
    rw [hq1] at this hsorted
    exact pairwise_head_le d q0 rest hsorted x this
  by_cases hlow : d v < d i
  · exact hmono v (hold v hv0 hv hlow)
  · have hcase : at? st.used v = some true ∨ v ∈ i :: q := by
      by_cases hz : v = 0
      · rw [hz]
        rcases hinv.root with h | h
        · exact Or.inl h
        · rw [hq] at h; exact Or.inr h
      · obtain ⟨u, hu0, hu, hvu, hdu⟩ := hd.2.2 v hv0 hv hz
        have huu := hold u hu0 hu (by omega)
        rcases hinv.closed u v huu hvu with h | h
        · exact Or.inl h
        · rw [hq] at h; exact Or.inr h
    rcases hcase with h | h
    · exact hmono v h
    · rcases List.mem_cons.mp h with h | h
      · rw [hU, if_pos h]
      · have := hhead v h
        omega

theorem bfs_step {g : my_graph} {N : Nat} {d : Int → Int} (hg : GraphOK g N)
    (hd : LevelFn g N d) {st st1 : State}
    (hinv : Inv g N st) {marks : List Int} (hm : MarksOK st marks) (hb : BfsOK N d st marks)
    {i : Int} {q : List Int} (hq : st.queue = i :: q) (hs : StepSpec g i q st st1) :
    BfsOK N d st1 (marks_after st i marks) := by
  obtain ⟨b1, b2, b3, b4, b5, b6⟩ := hb
  obtain ⟨hU, _, _⟩ := step_used_ans hinv hq hs
  have hi := hinv.queue_bd i (by rw [hq]; exact List.mem_cons_self _ _)
  obtain ⟨_, hadj⟩ := graphOK_adj hg i hi.1 hi.2
  have himem : i ∈ st.queue := by rw [hq]; exact List.mem_cons_self _ _
  have hqmem : ∀ x ∈ q, x ∈ st.queue := fun x hx => by rw [hq]; exact List.mem_cons_of_mem _ hx
  have hold := b5 i q hq
  rw [hq] at b3
  have hql : ∀ x ∈ q, d i ≤ d x := fun x hx =>
    pairwise_head_le d i q b3 x (List.mem_cons_of_mem _ hx)
  have hqu : ∀ x ∈ q, d x ≤ d i + 1 := fun x hx => b4 i himem x (hqmem x hx)
  unfold marks_after
  rcases hs with ⟨hu, hst1⟩ | ⟨hu, c, _, _, hqueue, _⟩
  · have hq1 : st1.queue = q := by rw [hst1]
    rw [hu, if_neg (by simp)]
    refine ⟨b1, ?_, ?_, ?_, ?_, ?_⟩
    · intro u hu' x hx
      rw [hq1] at hx
      exact b2 u hu' x (hqmem x hx)
    · rw [hq1]; exact (List.pairwise_cons.mp b3).2
    · intro a ha b hb
      rw [hq1] at ha hb
      exact b4 a (hqmem a ha) b (hqmem b hb)
    · exact bfs_head hd hinv hq hold hU (by rw [hq1]; exact (List.pairwise_cons.mp b3).2)
        (by intro x hx; rw [hq1]; exact hx) (by intro x hx; rw [hq1] at hx; exact hqu x hx)
    · rcases b6 with ⟨hm0, hq0⟩ | h
      · exfalso
        have h0 := (hm.2 i).mpr hu
        rw [hm0] at h0
        exact absurd h0 (List.not_mem_nil _)
      · exact Or.inr h
  · rw [hu, if_pos rfl]
    have hP : ∀ k ∈ (adj g i).filter
        (fun k => decide (at? (st.used.set i.toNat true) k = some false)), d k = d i + 1 := by
      intro k hk
      obtain ⟨hk1, hk2⟩ := List.mem_filter.mp hk
      have hk3 : at? st1.used k = some false := by
        rw [hU]
        have := of_decide_eq_true hk2
        have hul : i < st.used.length := by rw [hinv.used_len]; exact hi.2
        rw [at?_set _ _ _ _ hi.1 hul] at this
        exact this
      rw [hU] at hk3
      have hki : k ≠ i := by
        intro e
        rw [if_pos e] at hk3
        exact absurd hk3 (by simp)
      rw [if_neg hki] at hk3
      rcases hd.2.1 i k hi.1 hi.2 hk1 with h | h
      · exact h
      · have := hold k (hadj k hk1).1 (hadj k hk1).2 (by omega)
        rw [hk3] at this
        exact absurd this (by simp)
    have hsorted : st1.queue.Pairwise (fun a b => d a ≤ d b) := by
      rw [hqueue, List.pairwise_append]
      refine ⟨(List.pairwise_cons.mp b3).2, ?_, ?_⟩
      · rw [List.pairwise_iff_forall_sublist]
        intro a b hab
        have ha := hP a (hab.subset (List.mem_cons_self _ _))
        have hb := hP b (hab.subset (List.mem_cons_of_mem _ (List.mem_cons_self _ _)))
        omega
      · intro a ha b hb
        have := hqu a ha
        have := hP b hb
        omega
    have hrange : ∀ x ∈ st1.queue, d i ≤ d x ∧ d x ≤ d i + 1 := by
      intro x hx
      rw [hqueue] at hx
      rcases List.mem_append.mp hx with h | h
      · exact ⟨hql x h, hqu x h⟩
      · have := hP x h
        omega
    refine ⟨?_, ?_, hsorted, ?_, ?_, ?_⟩
    · rw [List.pairwise_append]
      refine ⟨b1, List.pairwise_singleton _ _, ?_⟩
      intro u hu' x hx
      rw [List.mem_singleton] at hx
      rw [hx]
      exact b2 u hu' i himem
    · intro u hu' x hx
      have hx2 := hrange x hx
      rcases List.mem_append.mp hu' with h | h
      · have := b2 u h i himem
        omega
      · rw [List.mem_singleton] at h
        rw [h]
        exact hx2.1
    · intro a ha b hb
      have := hrange a ha
      have := hrange b hb
      omega
    · exact bfs_head hd hinv hq hold hU hsorted
        (by intro x hx; rw [hqueue]; exact List.mem_append_left _ hx)
        (fun x hx => (hrange x hx).2)
    · right
      rcases b6 with ⟨hm0, hq0⟩ | h
      · rw [hq0] at hq
        have : i = 0 := (List.cons.inj hq).1.symm
        rw [hm0, this]
        rfl
      · cases marks with
        | nil => simp at h
        | cons x xs => simpa using h

theorem lattice_dist_coords (nj i j : Int) (hj0 : 0 ≤ j) (hj : j < nj) :
    lattice_dist nj (j + i * nj) = i + j := by
  unfold lattice_dist
  have h1 : (j + i * nj) % nj = j := by
    rw [Int.add_mul_emod_self, Int.emod_eq_of_lt hj0 hj]
  have h2 : (j + i * nj) / nj = i := by
    rw [Int.add_mul_ediv_right _ _ (by omega), Int.ediv_eq_zero_of_lt hj0 hj, zero_add]
  rw [h1, h2]

theorem lattice_levelFn (ni nj : Int) (hni : 1 ≤ ni) (hnj : 1 ≤ nj) :
    LevelFn (lattice ni nj) (lattice_size ni nj) (lattice_dist nj) := by
  have hc := lattice_size_cast ni nj (by omega) (by omega)
  refine ⟨?_, ?_, ?_⟩
  · have := lattice_dist_coords nj 0 0 (le_refl _) (by omega)
    simpa using this
  · intro v k h0 h hk
    rw [hc] at h
    obtain ⟨i, j, hi0, hi, hj0, hj, rfl⟩ := vertex_coords ni nj v h0 h hnj
    rw [lattice_adj ni nj i j hi0 hi hj0 hj] at hk
    have hkb := spec_group_bounds ni nj i j k hi0 hi hj0 hj hk
    obtain ⟨i', j', hi0', hi', hj0', hj', rfl⟩ := vertex_coords ni nj k hkb.1 hkb.2.1 hnj
    rw [mem_spec_group_coords ni nj i j i' j' hi hj0 hj hi0' hj0' hj'] at hk
    rw [lattice_dist_coords nj i j hj0 hj, lattice_dist_coords nj i' j' hj0' hj']
    omega
  · intro v h0 h hv
    rw [hc] at h
    obtain ⟨i, j, hi0, hi, hj0, hj, rfl⟩ := vertex_coords ni nj v h0 h hnj
    by_cases hjp : 0 < j
    · have hb := row_bounds ni nj i hi0 hi (by omega)
      refine ⟨(j - 1) + i * nj, by omega, by rw [hc]; omega, ?_, ?_⟩
      · rw [lattice_adj ni nj i (j - 1) hi0 hi (by omega) (by omega), mem_spec_group]
        right; left
        exact ⟨by omega, by ring⟩
      · rw [lattice_dist_coords nj i j hj0 hj, lattice_dist_coords nj i (j - 1) (by omega) (by omega)]
        ring
    · have hj00 : j = 0 := by omega
      subst hj00
      have hip : 0 < i := by
        by_contra hneg
        have : i = 0 := by omega
        subst this
        simp at hv
      have hb := row_bounds ni nj (i - 1) (by omega) (by omega) (by omega)
      refine ⟨0 + (i - 1) * nj, by omega, by rw [hc]; omega, ?_, ?_⟩
      · rw [lattice_adj ni nj (i - 1) 0 (by omega) (by omega) (le_refl _) (by omega),
          mem_spec_group]
        right; right; left
        exact ⟨by omega, by ring⟩
      · rw [lattice_dist_coords nj i 0 (le_refl _) (by omega),
          lattice_dist_coords nj (i - 1) 0 (le_refl _) (by omega)]
        ring

theorem walk_level_le {g : my_graph} {N : Nat} {d : Int → Int} (hg : GraphOK g N)
    (hd : LevelFn g N d) {n : Nat} {v : Int} (hw : WalkFrom0 g n v) :
    (0 ≤ v ∧ v < (N : Int)) ∧ d v ≤ n := by
  induction hw with
  | zero =>
    have := hg.1
    exact ⟨⟨le_refl _, by omega⟩, by rw [hd.1]; simp⟩
  | step _ hk ih =>
    obtain ⟨⟨h0, h1⟩, h2⟩ := ih
    have hkb := (graphOK_adj hg _ h0 h1).2 _ hk
    refine ⟨hkb, ?_⟩
    rcases hd.2.1 _ _ h0 h1 hk with h | h <;> push_cast <;> omega

theorem lattice_walk_coords (ni nj : Int) (i j : Nat) (hi : (i : Int) < ni) (hj : (j : Int) < nj) :
    WalkFrom0 (lattice ni nj) (i + j) ((j : Int) + (i : Int) * nj) := by
  induction j with
  | zero =>
    induction i with
    | zero =>
      have : ((0 : Nat) : Int) + ((0 : Nat) : Int) * nj = 0 := by simp
      rw [this]
      exact WalkFrom0.zero
    | succ i ih =>
      have h := ih (by push_cast at hi; omega)
      have e : i + 1 + 0 = (i + 0) + 1 := by omega
      rw [e]
      refine WalkFrom0.step h ?_
      rw [lattice_adj ni nj i (0 : Nat) (by omega) (by push_cast at hi; omega) (by simp) hj,
        mem_spec_group]
      right; right; left
      exact ⟨by push_cast at hi; omega, by push_cast; ring⟩
  | succ j ih =>
    have h := ih (by push_cast at hj; omega)
    have e : i + (j + 1) = (i + j) + 1 := by omega
    rw [e]
    refine WalkFrom0.step h ?_
    rw [lattice_adj ni nj i j (by omega) hi (by omega) (by push_cast at hj; omega), mem_spec_group]
    right; left
    exact ⟨by push_cast at hj; omega, by push_cast; ring⟩

/-- On the lattice in exact arithmetic: for `ni, nj ≥ 1` the sequence in which
`color_graph` marks the vertices of the lattice starts with vertex 0, contains every
vertex once, and is non-decreasing in the distance from vertex 0: a vertex marked
before another is not farther from vertex 0. The distance of the vertex at row `i`,
column `j` is `i + j`: a walk of that length from vertex 0 exists and none is shorter. -/
theorem lattice_bfs (ni nj : Int) (hni : 1 ≤ ni) (hnj : 1 ≤ nj) :
    ∃ st pops marks, color_graph_trace (lattice ni nj) = some (st, pops, marks) ∧
      color_graph (lattice ni nj) [] = some (st.colors_used, st.ans) ∧
      marks.head? = some 0 ∧
      marks.Pairwise (fun u v => lattice_dist nj u ≤ lattice_dist nj v) ∧
      marks.Nodup ∧ (∀ v : Int, v ∈ marks ↔ 0 ≤ v ∧ v < ni * nj) ∧
      ∀ i j : Int, 0 ≤ i → i < ni → 0 ≤ j → j < nj →
        lattice_dist nj (j + i * nj) = i + j ∧
        WalkFrom0 (lattice ni nj) (i + j).toNat (j + i * nj) ∧
        ∀ n : Nat, WalkFrom0 (lattice ni nj) n (j + i * nj) → i + j ≤ n := by
  have hc := lattice_size_cast ni nj (by omega) (by omega)
  have hg := lattice_graphOK ni nj hni hnj
  have hd := lattice_levelFn ni nj hni hnj
  obtain ⟨st, pops, marks, h1, h2, _, hinv, ⟨hm, hb⟩, hq⟩ := color_graph_trace_run hg
    (fun st _ marks => MarksOK st marks ∧ BfsOK (lattice_size ni nj) (lattice_dist nj) st marks)
    ⟨marks_init _, by
      refine ⟨List.Pairwise.nil, ?_, ?_, ?_, ?_, Or.inl ⟨rfl, rfl⟩⟩
      · intro u hu; exact absurd hu (List.not_mem_nil _)
      · exact List.pairwise_singleton _ _
      · intro a ha b hb
        have ea : a = 0 := by simpa [init_state] using ha
        have eb : b = 0 := by simpa [init_state] using hb
        rw [ea, eb]; omega
      · intro q0 rest hq0 v hv0 _ hlt
        have e : q0 = 0 := by
          have : (init_state (lattice ni nj) []).queue = [0] := rfl
          rw [this] at hq0
          exact (List.cons.inj hq0).1.symm
        rw [e, hd.1] at hlt
        have hv' : v < (lattice_size ni nj : Int) := by assumption
        rw [hc] at hv'
        obtain ⟨i, j, hi0, hi, hj0, hj, rfl⟩ := vertex_coords ni nj v hv0 hv' hnj
        rw [lattice_dist_coords nj i j hj0 hj] at hlt
        omega⟩
    (fun st st1 pops marks i q hinv hE hq hs =>
      ⟨marks_step hinv hE.1 hq hs, bfs_step hg hd hinv hE.1 hE.2 hq hs⟩)
  obtain ⟨b1, _, _, _, _, b6⟩ := hb
  refine ⟨st, pops, marks, h1, h2, ?_, b1, hm.1, ?_, ?_⟩
  · rcases b6 with ⟨_, h⟩ | h
    · rw [hq] at h; exact absurd h (by simp)
    · exact h
  · intro v
    rw [hm.2]
    constructor
    · intro h
      have := at?_some_bounds h
      rw [hinv.used_len, hc] at this
      exact this
    · rintro ⟨h0, hv⟩
      exact reach_used hinv hq (lattice_connected ni nj hni hnj v h0 (by rw [hc]; exact hv))
  · intro i j hi0 hi hj0 hj
    refine ⟨lattice_dist_coords nj i j hj0 hj, ?_, ?_⟩
    · obtain ⟨a, rfl⟩ := Int.eq_ofNat_of_zero_le hi0
      obtain ⟨b, rfl⟩ := Int.eq_ofNat_of_zero_le hj0
      have e : ((a : Int) + (b : Int)).toNat = a + b := by omega
      rw [e]
      exact lattice_walk_coords ni nj a b hi hj
    · intro n hw
      have := (walk_level_le hg hd hw).2
      rw [lattice_dist_coords nj i j hj0 hj] at this
      exact this

/-- C1, as amended (proper colouring on lattices): for `ni, nj ≥ 1` with
`ni * nj * 4 ≤ 2^31 - 1`, `generate_graph(ni, nj)` on an empty graph returns a graph,
`color_graph` returns on it, and for every vertex `i` below `ni * nj` and every entry `k`
of its neighbour range, `color[i]` and `color[k]` are defined and different. -/
theorem lattice_proper_colouring (ni nj : Int) (hni : 1 ≤ ni) (hnj : 1 ≤ nj)
    (hr : ni * nj * 4 ≤ 2 ^ 31 - 1) :
    ∃ g cc color, generate_graph ni nj { neighbours := [], offset := [] } = some g ∧
      color_graph g [] = some (cc, color) ∧
      ∀ i : Int, 0 ≤ i → i < ni * nj →
        ∃ l, neighbour_range g i = some l ∧
          ∀ k ∈ l, ∃ ci ck, at? color i = some ci ∧ at? color k = some ck ∧ ci ≠ ck := by
  obtain ⟨cc, color, h⟩ := lattice_proper ni nj hni hnj
  exact ⟨lattice ni nj, cc, color, generate_graph_eq_lattice ni nj hni hnj hr, h⟩

theorem lattice_proper_colouring_witness :
    (1 : Int) ≤ 3 ∧ (1 : Int) ≤ 4 ∧ (3 : Int) * 4 * 4 ≤ 2 ^ 31 - 1 ∧
    ∃ g cc color, generate_graph 3 4 { neighbours := [], offset := [] } = some g ∧
      color_graph g [] = some (cc, color) ∧
      ∀ i : Int, 0 ≤ i → i < 3 * 4 →
        ∃ l, neighbour_range g i = some l ∧
          ∀ k ∈ l, ∃ ci ck, at? color i = some ci ∧ at? color k = some ck ∧ ci ≠ ck :=
  ⟨by decide, by decide, by decide,
    lattice_proper_colouring 3 4 (by decide) (by decide) (by decide)⟩

/-- C1 fails as stated: for `ni = nj = 32768`, which `main` accepts, `generate_graph`
throws, so there is no graph and no colouring. -/
theorem lattice_proper_colouring_counterexample :
    (1 : Int) ≤ 32768 ∧ (32768 : Int) * 32768 ≤ 2 ^ 31 - 1 ∧
    generate_graph 32768 32768 { neighbours := [], offset := [] } = none ∧
    ¬ ∃ g cc color, generate_graph 32768 32768 { neighbours := [], offset := [] } = some g ∧
      color_graph g [] = some (cc, color) ∧
      ∀ i : Int, 0 ≤ i → i < 32768 * 32768 →
        ∃ l, neighbour_range g i = some l ∧
          ∀ k ∈ l, ∃ ci ck, at? color i = some ci ∧ at? color k = some ck ∧ ci ≠ ck := by
  refine ⟨by decide, by decide, generate_graph_throws, ?_⟩
  rintro ⟨g, cc, color, h, _⟩
  rw [generate_graph_throws] at h
  exact Option.noConfusion h

/-- C3, as amended (completeness): for `ni, nj ≥ 1` with `ni * nj * 4 ≤ 2^31 - 1`, after
`color_graph` runs on the graph returned by `generate_graph(ni, nj)` the colour array has
length `ni * nj` and every entry is a non-sentinel colour: `color[i] ≥ 0`, hence
`color[i] ≠ -1`, for every `i` below `ni * nj`. -/
theorem lattice_colouring_complete (ni nj : Int) (hni : 1 ≤ ni) (hnj : 1 ≤ nj)
    (hr : ni * nj * 4 ≤ 2 ^ 31 - 1) :
    ∃ g cc color, generate_graph ni nj { neighbours := [], offset := [] } = some g ∧
      color_graph g [] = some (cc, color) ∧
      (color.length : Int) = ni * nj ∧
      ∀ i : Int, 0 ≤ i → i < ni * nj → ∃ c, at? color i = some c ∧ 0 ≤ c ∧ c ≠ -1 := by
  obtain ⟨cc, color, h⟩ := lattice_complete ni nj hni hnj
  exact ⟨lattice ni nj, cc, color, generate_graph_eq_lattice ni nj hni hnj hr, h⟩

theorem lattice_colouring_complete_witness :
    (1 : Int) ≤ 4 ∧ (1 : Int) ≤ 1 ∧ (4 : Int) * 1 * 4 ≤ 2 ^ 31 - 1 ∧
    ∃ g cc color, generate_graph 4 1 { neighbours := [], offset := [] } = some g ∧
      color_graph g [] = some (cc, color) ∧
      (color.length : Int) = 4 * 1 ∧
      ∀ i : Int, 0 ≤ i → i < 4 * 1 → ∃ c, at? color i = some c ∧ 0 ≤ c ∧ c ≠ -1 :=
  ⟨by decide, by decide, by decide,
    lattice_colouring_complete 4 1 (by decide) (by decide) (by decide)⟩

/-- C3 fails as stated: for `ni = nj = 32768`, which `main` accepts, `generate_graph`
throws, so no colour array of length `ni * nj` is produced. -/
theorem lattice_colouring_complete_counterexample :
    (1 : Int) ≤ 32768 ∧ (32768 : Int) * 32768 ≤ 2 ^ 31 - 1 ∧
    generate_graph 32768 32768 { neighbours := [], offset := [] } = none ∧
    ¬ ∃ g cc color, generate_graph 32768 32768 { neighbours := [], offset := [] } = some g ∧
      color_graph g [] = some (cc, color) ∧
      (color.length : Int) = 32768 * 32768 ∧
      ∀ i : Int, 0 ≤ i → i < 32768 * 32768 → ∃ c, at? color i = some c ∧ 0 ≤ c ∧ c ≠ -1 := by
  refine ⟨by decide, by decide, generate_graph_throws, ?_⟩
  rintro ⟨g, cc, color, h, _⟩
  rw [generate_graph_throws] at h
  exact Option.noConfusion h

/-- C4, as amended (exact neighbour lists and their order): for `ni, nj ≥ 1` with
`ni * nj * 4 ≤ 2^31 - 1`, row `i` and column `j`, with `I = j + i * nj`, the neighbour
range of `I` in the graph returned by `generate_graph(ni, nj)` is exactly the list made of
`I - 1` if `j > 0`, `I + 1` if `j < nj - 1`, `I + nj` if `i < ni - 1` and `I - nj` if
`i > 0`, in this order (left, right, down, up). -/
theorem generate_graph_neighbour_lists (ni nj i j : Int) (hni : 1 ≤ ni) (hnj : 1 ≤ nj)
    (hr : ni * nj * 4 ≤ 2 ^ 31 - 1) (hi0 : 0 ≤ i) (hi : i < ni) (hj0 : 0 ≤ j) (hj : j < nj) :
    ∃ g, generate_graph ni nj { neighbours := [], offset := [] } = some g ∧
      neighbour_range g (j + i * nj) =
        some ((if j > 0 then [j + i * nj - 1] else []) ++
          (if j < nj - 1 then [j + i * nj + 1] else []) ++
          (if i < ni - 1 then [j + i * nj + nj] else []) ++
          (if i > 0 then [j + i * nj - nj] else [])) :=
  ⟨lattice ni nj, generate_graph_eq_lattice ni nj hni hnj hr,
    lattice_range ni nj i j hi0 hi hj0 hj⟩

theorem generate_graph_neighbour_lists_witness :
    (1 : Int) ≤ 3 ∧ (1 : Int) ≤ 3 ∧ (3 : Int) * 3 * 4 ≤ 2 ^ 31 - 1 ∧
    (0 : Int) ≤ 1 ∧ (1 : Int) < 3 ∧ (0 : Int) ≤ 1 ∧ (1 : Int) < 3 ∧
    ∃ g, generate_graph 3 3 { neighbours := [], offset := [] } = some g ∧
      neighbour_range g (1 + 1 * 3) =
        some ((if (1 : Int) > 0 then [1 + 1 * 3 - 1] else []) ++
          (if (1 : Int) < 3 - 1 then [1 + 1 * 3 + 1] else []) ++
          (if (1 : Int) < 3 - 1 then [1 + 1 * 3 + 3] else []) ++
          (if (1 : Int) > 0 then [1 + 1 * 3 - 3] else [])) :=
  ⟨by decide, by decide, by decide, by decide, by decide, by decide, by decide,
    generate_graph_neighbour_lists 3 3 1 1 (by decide) (by decide) (by decide) (by decide)
      (by decide) (by decide) (by decide)⟩

/-- C4 fails as stated: for `ni = nj = 32768`, which `main` accepts, `generate_graph`
throws, so vertex 0 (row 0, column 0) has no neighbour range. -/
theorem generate_graph_neighbour_lists_counterexample :
    (1 : Int) ≤ 32768 ∧ (32768 : Int) * 32768 ≤ 2 ^ 31 - 1 ∧ (0 : Int) ≤ 0 ∧ (0 : Int) < 32768 ∧
    generate_graph 32768 32768 { neighbours := [], offset := [] } = none ∧
    ¬ ∃ g, generate_graph 32768 32768 { neighbours := [], offset := [] } = some g ∧
      neighbour_range g (0 + 0 * 32768) =
        some ((if (0 : Int) > 0 then [0 + 0 * 32768 - 1] else []) ++
          (if (0 : Int) < 32768 - 1 then [0 + 0 * 32768 + 1] else []) ++
          (if (0 : Int) < 32768 - 1 then [0 + 0 * 32768 + 32768] else []) ++
          (if (0 : Int) > 0 then [0 + 0 * 32768 - 32768] else [])) := by
  refine ⟨by decide, by decide, by decide, by decide, generate_graph_throws, ?_⟩
  rintro ⟨g, h, _⟩
  rw [generate_graph_throws] at h
  exact Option.noConfusion h

/-- C5, as amended (adjacency symmetry): for `ni, nj ≥ 1` with `ni * nj * 4 ≤ 2^31 - 1`
and vertices `i`, `k` below `ni * nj` of the graph returned by `generate_graph(ni, nj)`,
`k` occurs in the neighbour range of `i` if and only if `i` occurs in the neighbour
range of `k`. -/
theorem generate_graph_symmetric (ni nj : Int) (hni : 1 ≤ ni) (hnj : 1 ≤ nj)
    (hr : ni * nj * 4 ≤ 2 ^ 31 - 1) (i k : Int)
    (hi0 : 0 ≤ i) (hi : i < ni * nj) (hk0 : 0 ≤ k) (hk : k < ni * nj) :
    ∃ g, generate_graph ni nj { neighbours := [], offset := [] } = some g ∧
      ((∃ l, neighbour_range g i = some l ∧ k ∈ l) ↔
        (∃ l, neighbour_range g k = some l ∧ i ∈ l)) :=
  ⟨lattice ni nj, generate_graph_eq_lattice ni nj hni hnj hr,
    lattice_ranges_symmetric ni nj hni hnj i k hi0 hi hk0 hk⟩

theorem generate_graph_symmetric_witness :
    (1 : Int) ≤ 2 ∧ (1 : Int) ≤ 3 ∧ (2 : Int) * 3 * 4 ≤ 2 ^ 31 - 1 ∧
    (0 : Int) ≤ 1 ∧ (1 : Int) < 2 * 3 ∧ (0 : Int) ≤ 4 ∧ (4 : Int) < 2 * 3 ∧
    ∃ g, generate_graph 2 3 { neighbours := [], offset := [] } = some g ∧
      ((∃ l, neighbour_range g 1 = some l ∧ (4 : Int) ∈ l) ↔
        (∃ l, neighbour_range g 4 = some l ∧ (1 : Int) ∈ l)) :=
  ⟨by decide, by decide, by decide, by decide, by decide, by decide, by decide,
    generate_graph_symmetric 2 3 (by decide) (by decide) (by decide) 1 4 (by decide)
      (by decide) (by decide) (by decide)⟩

/-- C5 fails as stated: for `ni = nj = 32768`, which `main` accepts, `generate_graph`
throws, so there is no graph whose neighbour ranges could be compared. -/
theorem generate_graph_symmetric_counterexample :
    (1 : Int) ≤ 32768 ∧ (32768 : Int) * 32768 ≤ 2 ^ 31 - 1 ∧
    (0 : Int) ≤ 0 ∧ (0 : Int) < 32768 * 32768 ∧ (0 : Int) ≤ 1 ∧ (1 : Int) < 32768 * 32768 ∧
    generate_graph 32768 32768 { neighbours := [], offset := [] } = none ∧
    ¬ ∃ g, generate_graph 32768 32768 { neighbours := [], offset := [] } = some g ∧
      ((∃ l, neighbour_range g 0 = some l ∧ (1 : Int) ∈ l) ↔
        (∃ l, neighbour_range g 1 = some l ∧ (0 : Int) ∈ l)) := by
  refine ⟨by decide, by decide, by decide, by decide, by decide, by decide,
    generate_graph_throws, ?_⟩
  rintro ⟨g, h, _⟩
  rw [generate_graph_throws] at h
  exact Option.noConfusion h

/-- C6, as amended (CSR well-formedness of the lattice): for `ni, nj ≥ 1` with
`ni * nj * 4 ≤ 2^31 - 1`, `generate_graph(ni, nj)` applied to an empty graph returns a
graph whose offset table has `ni * nj + 1` entries, so `size()` is `ni * nj`; its first
entry is 0, its last entry is the length of `neighbours`, and consecutive entries never
decrease. -/
theorem generate_graph_csr_well_formed (ni nj : Int) (hni : 1 ≤ ni) (hnj : 1 ≤ nj)
    (hr : ni * nj * 4 ≤ 2 ^ 31 - 1) :
    ∃ g, generate_graph ni nj { neighbours := [], offset := [] } = some g ∧
      (g.offset.length : Int) = ni * nj + 1 ∧
      (g.size : Int) = ni * nj ∧
      at? g.offset 0 = some 0 ∧
      at? g.offset (ni * nj) = some (g.neighbours.length : Int) ∧
      ∀ v : Int, 0 ≤ v → v < ni * nj →
        ∃ x y, at? g.offset v = some x ∧ at? g.offset (v + 1) = some y ∧ x ≤ y := by
  have hc := lattice_size_cast ni nj (by omega) (by omega)
  obtain ⟨h1, h2, h3, h4, _⟩ := lattice_wellFormed ni nj hni hnj
  refine ⟨lattice ni nj, generate_graph_eq_lattice ni nj hni hnj hr, ?_, ?_, h2, ?_, ?_⟩
  · rw [h1]; push_cast; rw [hc]
  · rw [my_graph.size, h1, Nat.add_sub_cancel, hc]
  · rw [← hc]; exact h4
  · intro v h0 hv
    exact h3 v h0 (by rw [hc]; exact hv)

theorem generate_graph_csr_well_formed_witness :
    (1 : Int) ≤ 2 ∧ (1 : Int) ≤ 3 ∧ (2 : Int) * 3 * 4 ≤ 2 ^ 31 - 1 ∧
    ∃ g, generate_graph 2 3 { neighbours := [], offset := [] } = some g ∧
      (g.offset.length : Int) = 2 * 3 + 1 ∧
      (g.size : Int) = 2 * 3 ∧
      at? g.offset 0 = some 0 ∧
      at? g.offset (2 * 3) = some (g.neighbours.length : Int) ∧
      ∀ v : Int, 0 ≤ v → v < 2 * 3 →
        ∃ x y, at? g.offset v = some x ∧ at? g.offset (v + 1) = some y ∧ x ≤ y :=
  ⟨by decide, by decide, by decide,
    generate_graph_csr_well_formed 2 3 (by decide) (by decide) (by decide)⟩

/-- C6 fails as stated: for `ni = nj = 32768`, which `main` accepts, `generate_graph`
applied to an empty graph throws in its second `reserve` and yields no offset table. -/
theorem generate_graph_csr_well_formed_counterexample :
    (1 : Int) ≤ 32768 ∧ (32768 : Int) * 32768 ≤ 2 ^ 31 - 1 ∧
    reserve_capacity32 32768 32768 = -131072 ∧
    generate_graph 32768 32768 { neighbours := [], offset := [] } = none ∧
    ¬ ∃ g, generate_graph 32768 32768 { neighbours := [], offset := [] } = some g ∧
      (g.offset.length : Int) = 32768 * 32768 + 1 ∧
      (g.size : Int) = 32768 * 32768 ∧
      at? g.offset 0 = some 0 ∧
      at? g.offset (32768 * 32768) = some (g.neighbours.length : Int) ∧
      ∀ v : Int, 0 ≤ v → v < 32768 * 32768 →
        ∃ x y, at? g.offset v = some x ∧ at? g.offset (v + 1) = some y ∧ x ≤ y := by
  refine ⟨by decide, by decide, by decide, generate_graph_throws, ?_⟩
  rintro ⟨g, h, _⟩
  rw [generate_graph_throws] at h
  exact Option.noConfusion h

/-- C7, as amended (contiguous colour ids): for `ni, nj ≥ 1` with
`ni * nj * 4 ≤ 2^31 - 1`, the count returned by `color_graph` on the graph returned by
`generate_graph(ni, nj)` equals the number of distinct values in the colour array, and
the values occurring in the colour array are exactly `0, 1, ..., colorCount - 1`. -/
theorem lattice_contiguous_colours (ni nj : Int) (hni : 1 ≤ ni) (hnj : 1 ≤ nj)
    (hr : ni * nj * 4 ≤ 2 ^ 31 - 1) :
    ∃ g cc color, generate_graph ni nj { neighbours := [], offset := [] } = some g ∧
      color_graph g [] = some (cc, color) ∧
      (color.dedup.length : Int) = cc ∧ ∀ c : Int, c ∈ color ↔ 0 ≤ c ∧ c < cc := by
  obtain ⟨cc, color, h⟩ := lattice_contiguous ni nj hni hnj
  exact ⟨lattice ni nj, cc, color, generate_graph_eq_lattice ni nj hni hnj hr, h⟩

theorem lattice_contiguous_colours_witness :
    (1 : Int) ≤ 2 ∧ (1 : Int) ≤ 5 ∧ (2 : Int) * 5 * 4 ≤ 2 ^ 31 - 1 ∧
    ∃ g cc color, generate_graph 2 5 { neighbours := [], offset := [] } = some g ∧
      color_graph g [] = some (cc, color) ∧
      (color.dedup.length : Int) = cc ∧ ∀ c : Int, c ∈ color ↔ 0 ≤ c ∧ c < cc :=
  ⟨by decide, by decide, by decide,
    lattice_contiguous_colours 2 5 (by decide) (by decide) (by decide)⟩

/-- C7 fails as stated: for `ni = nj = 32768`, which `main` accepts, `generate_graph`
throws, so `color_graph` never runs and returns no count. -/
theorem lattice_contiguous_colours_counterexample :
    (1 : Int) ≤ 32768 ∧ (32768 : Int) * 32768 ≤ 2 ^ 31 - 1 ∧
    generate_graph 32768 32768 { neighbours := [], offset := [] } = none ∧
    ¬ ∃ g cc color, generate_graph 32768 32768 { neighbours := [], offset := [] } = some g ∧
      color_graph g [] = some (cc, color) ∧
      (color.dedup.length : Int) = cc ∧ ∀ c : Int, c ∈ color ↔ 0 ≤ c ∧ c < cc := by
  refine ⟨by decide, by decide, generate_graph_throws, ?_⟩
  rintro ⟨g, cc, color, h, _⟩
  rw [generate_graph_throws] at h
  exact Option.noConfusion h

/-- C8, as amended (checkerboard result): for `ni, nj ≥ 1` with
`ni * nj * 4 ≤ 2^31 - 1`, `color_graph` on the graph returned by `generate_graph(ni, nj)`
gives the vertex at row `i`, column `j` the colour `(i + j) mod 2` and returns the count 1
when `ni * nj = 1` and 2 otherwise; in particular building and colouring 1x1 gives count 1
and colours `[0]`, 1x2 gives count 2 and colours `[0, 1]`, 2x2 gives count 2 and colours
`[0, 1, 1, 0]`. -/
theorem lattice_checkerboard_colouring (ni nj : Int) (hni : 1 ≤ ni) (hnj : 1 ≤ nj)
    (hr : ni * nj * 4 ≤ 2 ^ 31 - 1) :
    (∃ g color, generate_graph ni nj { neighbours := [], offset := [] } = some g ∧
      color_graph g [] = some ((if ni * nj = 1 then 1 else 2), color) ∧
      (color.length : Int) = ni * nj ∧
      ∀ i j : Int, 0 ≤ i → i < ni → 0 ≤ j → j < nj →
        at? color (j + i * nj) = some ((i + j) % 2)) ∧
    (generate_graph 1 1 { neighbours := [], offset := [] }).bind (fun g => color_graph g []) =
      some (1, [0]) ∧
    (generate_graph 1 2 { neighbours := [], offset := [] }).bind (fun g => color_graph g []) =
      some (2, [0, 1]) ∧
    (generate_graph 2 2 { neighbours := [], offset := [] }).bind (fun g => color_graph g []) =
      some (2, [0, 1, 1, 0]) := by
  obtain ⟨cc, color, h1, h2, h3, h4⟩ := lattice_checkerboard ni nj hni hnj
  refine ⟨⟨lattice ni nj, color, generate_graph_eq_lattice ni nj hni hnj hr, ?_, h2, h3⟩,
    by decide, by decide, by decide⟩
  rw [← h4]
  exact h1

theorem lattice_checkerboard_colouring_witness :
    (1 : Int) ≤ 3 ∧ (1 : Int) ≤ 2 ∧ (3 : Int) * 2 * 4 ≤ 2 ^ 31 - 1 ∧
    ((∃ g color, generate_graph 3 2 { neighbours := [], offset := [] } = some g ∧
      color_graph g [] = some ((if (3 : Int) * 2 = 1 then 1 else 2), color) ∧
      (color.length : Int) = 3 * 2 ∧
      ∀ i j : Int, 0 ≤ i → i < 3 → 0 ≤ j → j < 2 →
        at? color (j + i * 2) = some ((i + j) % 2)) ∧
    (generate_graph 1 1 { neighbours := [], offset := [] }).bind (fun g => color_graph g []) =
      some (1, [0]) ∧
    (generate_graph 1 2 { neighbours := [], offset := [] }).bind (fun g => color_graph g []) =
      some (2, [0, 1]) ∧
    (generate_graph 2 2 { neighbours := [], offset := [] }).bind (fun g => color_graph g []) =
      some (2, [0, 1, 1, 0])) :=
  ⟨by decide, by decide, by decide,
    lattice_checkerboard_colouring 3 2 (by decide) (by decide) (by decide)⟩

/-- C8 fails as stated: for `ni = nj = 32768`, which `main` accepts, `generate_graph`
throws, so no vertex receives the colour `(i + j) mod 2` and no count is returned. -/
theorem lattice_checkerboard_colouring_counterexample :
    (1 : Int) ≤ 32768 ∧ (32768 : Int) * 32768 ≤ 2 ^ 31 - 1 ∧
    generate_graph 32768 32768 { neighbours := [], offset := [] } = none ∧
    (generate_graph 32768 32768 { neighbours := [], offset := [] }).bind
      (fun g => color_graph g []) = none ∧
    ¬ ∃ g color, generate_graph 32768 32768 { neighbours := [], offset := [] } = some g ∧
      color_graph g [] = some ((if (32768 : Int) * 32768 = 1 then 1 else 2), color) ∧
      (color.length : Int) = 32768 * 32768 ∧
      ∀ i j : Int, 0 ≤ i → i < 32768 → 0 ≤ j → j < 32768 →
        at? color (j + i * 32768) = some ((i + j) % 2) := by
  refine ⟨by decide, by decide, generate_graph_throws, ?_, ?_⟩
  · rw [generate_graph_throws]
    rfl
  · rintro ⟨g, color, h, _⟩
    rw [generate_graph_throws] at h
    exact Option.noConfusion h

/-- C9 (scenario C): `generate_graph(2, 2)` yields the 4-cycle with the edges 0-1, 0-2,
1-3, 2-3, stored as `neighbours = [1,2, 0,3, 3,0, 2,1]` and `offset = [0,2,4,6,8]`, and
`color_graph` on it returns the count 2 with the colours `[0, 1, 1, 0]`. -/
theorem scenario_c_two_by_two :
    generate_graph 2 2 { neighbours := [], offset := [] } =
      some { neighbours := [1, 2, 0, 3, 3, 0, 2, 1], offset := [0, 2, 4, 6, 8] } ∧
    lattice 2 2 = { neighbours := [1, 2, 0, 3, 3, 0, 2, 1], offset := [0, 2, 4, 6, 8] } ∧
    neighbour_range (lattice 2 2) 0 = some [1, 2] ∧
    neighbour_range (lattice 2 2) 1 = some [0, 3] ∧
    neighbour_range (lattice 2 2) 2 = some [3, 0] ∧
    neighbour_range (lattice 2 2) 3 = some [2, 1] ∧
    color_graph (lattice 2 2) [] = some (2, [0, 1, 1, 0]) ∧
    (generate_graph 2 2 { neighbours := [], offset := [] }).bind (fun g => color_graph g []) =
      some (2, [0, 1, 1, 0]) := by
  decide

/-- C10, as amended (no self-loops and no duplicates): for `ni, nj ≥ 1` with
`ni * nj * 4 ≤ 2^31 - 1` and every vertex `v` below `ni * nj` of the graph returned by
`generate_graph(ni, nj)`, every entry of the neighbour range of `v` is a vertex index in
`[0, ni * nj)` different from `v`, and no index occurs twice in the range. -/
theorem generate_graph_simple (ni nj : Int) (hni : 1 ≤ ni) (hnj : 1 ≤ nj)
    (hr : ni * nj * 4 ≤ 2 ^ 31 - 1) (v : Int) (hv0 : 0 ≤ v) (hv : v < ni * nj) :
    ∃ g l, generate_graph ni nj { neighbours := [], offset := [] } = some g ∧
      neighbour_range g v = some l ∧
      (∀ k ∈ l, 0 ≤ k ∧ k < ni * nj ∧ k ≠ v) ∧ l.Nodup := by
  obtain ⟨l, h⟩ := lattice_ranges_simple ni nj hni hnj v hv0 hv
  exact ⟨lattice ni nj, l, generate_graph_eq_lattice ni nj hni hnj hr, h⟩

theorem generate_graph_simple_witness :
    (1 : Int) ≤ 2 ∧ (1 : Int) ≤ 3 ∧ (2 : Int) * 3 * 4 ≤ 2 ^ 31 - 1 ∧
    (0 : Int) ≤ 4 ∧ (4 : Int) < 2 * 3 ∧
    (generate_graph 2 3 { neighbours := [], offset := [] }).bind
      (fun g => neighbour_range g 4) = some [3, 5, 1] ∧
    ∃ g l, generate_graph 2 3 { neighbours := [], offset := [] } = some g ∧
      neighbour_range g 4 = some l ∧
      (∀ k ∈ l, 0 ≤ k ∧ k < 2 * 3 ∧ k ≠ 4) ∧ l.Nodup :=
  ⟨by decide, by decide, by decide, by decide, by decide, by decide,
    generate_graph_simple 2 3 (by decide) (by decide) (by decide) 4 (by decide) (by decide)⟩

/-- C10 fails as stated: for `ni = nj = 32768`, which `main` accepts, `generate_graph`
throws, so vertex 0 has no neighbour range. -/
theorem generate_graph_simple_counterexample :
    (1 : Int) ≤ 32768 ∧ (32768 : Int) * 32768 ≤ 2 ^ 31 - 1 ∧
    (0 : Int) ≤ 0 ∧ (0 : Int) < 32768 * 32768 ∧
    generate_graph 32768 32768 { neighbours := [], offset := [] } = none ∧
    ¬ ∃ g l, generate_graph 32768 32768 { neighbours := [], offset := [] } = some g ∧
      neighbour_range g 0 = some l ∧
      (∀ k ∈ l, 0 ≤ k ∧ k < 32768 * 32768 ∧ k ≠ 0) ∧ l.Nodup := by
  refine ⟨by decide, by decide, by decide, by decide, generate_graph_throws, ?_⟩
  rintro ⟨g, l, h, _⟩
  rw [generate_graph_throws] at h
  exact Option.noConfusion h

/-- C11, as amended: for `ni, nj ≥ 1` with `ni * nj * 4 ≤ 2^31 - 1` every vertex of the
graph returned by `generate_graph(ni, nj)` has a degree `offset[v+1] - offset[v]` between
0 and 4, and between 2 and 4 when `ni ≥ 2` and `nj ≥ 2`. -/
theorem generate_graph_degree_bounds (ni nj : Int) (hni : 1 ≤ ni) (hnj : 1 ≤ nj)
    (hr : ni * nj * 4 ≤ 2 ^ 31 - 1) (v : Int) (hv0 : 0 ≤ v) (hv : v < ni * nj) :
    ∃ g a b, generate_graph ni nj { neighbours := [], offset := [] } = some g ∧
      at? g.offset v = some a ∧ at? g.offset (v + 1) = some b ∧
      0 ≤ b - a ∧ b - a ≤ 4 ∧ (2 ≤ ni → 2 ≤ nj → 2 ≤ b - a) := by
  obtain ⟨a, b, h⟩ := lattice_degree_bounds ni nj hnj v hv0 hv
  exact ⟨lattice ni nj, a, b, generate_graph_eq_lattice ni nj hni hnj hr, h⟩

theorem generate_graph_degree_bounds_witness :
    (1 : Int) ≤ 2 ∧ (1 : Int) ≤ 3 ∧ (2 : Int) * 3 * 4 ≤ 2 ^ 31 - 1 ∧
    (0 : Int) ≤ 4 ∧ (4 : Int) < 2 * 3 ∧
    ∃ g a b, generate_graph 2 3 { neighbours := [], offset := [] } = some g ∧
      at? g.offset 4 = some a ∧ at? g.offset (4 + 1) = some b ∧
      0 ≤ b - a ∧ b - a ≤ 4 ∧ ((2 : Int) ≤ 2 → (2 : Int) ≤ 3 → 2 ≤ b - a) :=
  ⟨by decide, by decide, by decide, by decide, by decide,
    generate_graph_degree_bounds 2 3 (by decide) (by decide) (by decide) 4 (by decide)
      (by decide)⟩

/-- C11 fails as stated: `generate_graph(1, 1)` returns the graph with one vertex and no
neighbour entries; the degree of its vertex is 0, which is not in `{2, 3, 4}`. -/
theorem generate_graph_degree_counterexample :
    (1 : Int) ≤ 1 ∧ (0 : Int) ≤ 0 ∧ (0 : Int) < 1 * 1 ∧
    generate_graph 1 1 { neighbours := [], offset := [] } =
      some { neighbours := [], offset := [0, 0] } ∧
    ¬ ∃ g a b, generate_graph 1 1 { neighbours := [], offset := [] } = some g ∧
      at? g.offset 0 = some a ∧ at? g.offset (0 + 1) = some b ∧
      (b - a = 2 ∨ b - a = 3 ∨ b - a = 4) := by
  have hg : generate_graph 1 1 { neighbours := [], offset := [] } =
      some { neighbours := [], offset := [0, 0] } := by decide
  refine ⟨by decide, by decide, by decide, hg, ?_⟩
  rintro ⟨g, a, b, h, ha, hb, hd⟩
  rw [hg] at h
  have e := Option.some.inj h
  subst e
  have h0 : at? ([0, 0] : List Int) 0 = some 0 := by decide
  have h1 : at? ([0, 0] : List Int) (0 + 1) = some 0 := by decide
  rw [h0] at ha
  rw [h1] at hb
  have e1 := Option.some.inj ha
  have e2 := Option.some.inj hb
  omega

/-- C16, as amended (breadth-first visitation order): for `ni, nj ≥ 1` with
`ni * nj * 4 ≤ 2^31 - 1` the sequence in which `color_graph` marks the vertices of the
graph returned by `generate_graph(ni, nj)` starts with vertex 0, contains every vertex
once, and is non-decreasing in the distance from vertex 0: a vertex marked before another
is not farther from vertex 0. The distance of the vertex at row `i`, column `j` is
`i + j`: a walk of that length from vertex 0 exists and none is shorter. -/
theorem lattice_bfs_order (ni nj : Int) (hni : 1 ≤ ni) (hnj : 1 ≤ nj)
    (hr : ni * nj * 4 ≤ 2 ^ 31 - 1) :
    ∃ g st pops marks, generate_graph ni nj { neighbours := [], offset := [] } = some g ∧
      color_graph_trace g = some (st, pops, marks) ∧
      color_graph g [] = some (st.colors_used, st.ans) ∧
      marks.head? = some 0 ∧
      marks.Pairwise (fun u v => lattice_dist nj u ≤ lattice_dist nj v) ∧
      marks.Nodup ∧ (∀ v : Int, v ∈ marks ↔ 0 ≤ v ∧ v < ni * nj) ∧
      ∀ i j : Int, 0 ≤ i → i < ni → 0 ≤ j → j < nj →
        lattice_dist nj (j + i * nj) = i + j ∧
        WalkFrom0 g (i + j).toNat (j + i * nj) ∧
        ∀ n : Nat, WalkFrom0 g n (j + i * nj) → i + j ≤ n := by
  obtain ⟨st, pops, marks, h⟩ := lattice_bfs ni nj hni hnj
  exact ⟨lattice ni nj, st, pops, marks, generate_graph_eq_lattice ni nj hni hnj hr, h⟩

theorem lattice_bfs_order_witness :
    (1 : Int) ≤ 2 ∧ (1 : Int) ≤ 3 ∧ (2 : Int) * 3 * 4 ≤ 2 ^ 31 - 1 ∧
    ∃ g st pops marks, generate_graph 2 3 { neighbours := [], offset := [] } = some g ∧
      color_graph_trace g = some (st, pops, marks) ∧
      color_graph g [] = some (st.colors_used, st.ans) ∧
      marks.head? = some 0 ∧
      marks.Pairwise (fun u v => lattice_dist 3 u ≤ lattice_dist 3 v) ∧
      marks.Nodup ∧ (∀ v : Int, v ∈ marks ↔ 0 ≤ v ∧ v < 2 * 3) ∧
      ∀ i j : Int, 0 ≤ i → i < 2 → 0 ≤ j → j < 3 →
        lattice_dist 3 (j + i * 3) = i + j ∧
        WalkFrom0 g (i + j).toNat (j + i * 3) ∧
        ∀ n : Nat, WalkFrom0 g n (j + i * 3) → i + j ≤ n :=
  ⟨by decide, by decide, by decide,
    lattice_bfs_order 2 3 (by decide) (by decide) (by decide)⟩

/-- C16 fails as stated: for `ni = nj = 32768`, which `main` accepts, `generate_graph`
throws, so `color_graph` never runs and no vertex is marked. -/
theorem lattice_bfs_order_counterexample :
    (1 : Int) ≤ 32768 ∧ (32768 : Int) * 32768 ≤ 2 ^ 31 - 1 ∧
    generate_graph 32768 32768 { neighbours := [], offset := [] } = none ∧
    ¬ ∃ g st pops marks,
      generate_graph 32768 32768 { neighbours := [], offset := [] } = some g ∧
      color_graph_trace g = some (st, pops, marks) ∧
      color_graph g [] = some (st.colors_used, st.ans) ∧
      marks.head? = some 0 ∧
      marks.Pairwise (fun u v => lattice_dist 32768 u ≤ lattice_dist 32768 v) ∧
      marks.Nodup ∧ (∀ v : Int, v ∈ marks ↔ 0 ≤ v ∧ v < 32768 * 32768) ∧
      ∀ i j : Int, 0 ≤ i → i < 32768 → 0 ≤ j → j < 32768 →
        lattice_dist 32768 (j + i * 32768) = i + j ∧
        WalkFrom0 g (i + j).toNat (j + i * 32768) ∧
        ∀ n : Nat, WalkFrom0 g n (j + i * 32768) → i + j ≤ n := by
  refine ⟨by decide, by decide, generate_graph_throws, ?_⟩
  rintro ⟨g, st, pops, marks, h, _⟩
  rw [generate_graph_throws] at h
  exact Option.noConfusion h

/-- C18, as amended (each undirected edge exported once): for `ni, nj ≥ 1` with
`ni * nj * 4 ≤ 2^31 - 1` the loop of `main` on the graph returned by
`generate_graph(ni, nj)` prints exactly the pairs `(i, k)` with `k` in the neighbour range
of `i` and `i > k`; their number is `len(neighbours) / 2`, the count announced in the
headers; no pair is printed twice; and for adjacent `i`, `k` the pair
`(max i k, min i k)` is printed exactly once and the reversed pair never. -/
theorem export_cells_each_edge_once (ni nj : Int) (hni : 1 ≤ ni) (hnj : 1 ≤ nj)
    (hr : ni * nj * 4 ≤ 2 ^ 31 - 1) :
    ∃ g cells, generate_graph ni nj { neighbours := [], offset := [] } = some g ∧
      export_cells g = some cells ∧
      cells.length = cells_announced g ∧
      cells_announced g = g.neighbours.length / 2 ∧
      (∀ i k : Int, (i, k) ∈ cells ↔ 0 ≤ i ∧ i < ni * nj ∧ k ∈ adj g i ∧ i > k) ∧
      cells.Nodup ∧
      ∀ i k : Int, 0 ≤ i → i < ni * nj → k ∈ adj g i →
        cells.count (max i k, min i k) = 1 ∧ cells.count (min i k, max i k) = 0 := by
  obtain ⟨cells, h⟩ := lattice_cells_once ni nj hni hnj
  exact ⟨lattice ni nj, cells, generate_graph_eq_lattice ni nj hni hnj hr, h⟩

theorem export_cells_each_edge_once_witness :
    (1 : Int) ≤ 2 ∧ (1 : Int) ≤ 2 ∧ (2 : Int) * 2 * 4 ≤ 2 ^ 31 - 1 ∧
    ∃ g cells, generate_graph 2 2 { neighbours := [], offset := [] } = some g ∧
      export_cells g = some cells ∧
      cells.length = cells_announced g ∧
      cells_announced g = g.neighbours.length / 2 ∧
      (∀ i k : Int, (i, k) ∈ cells ↔ 0 ≤ i ∧ i < 2 * 2 ∧ k ∈ adj g i ∧ i > k) ∧
      cells.Nodup ∧
      ∀ i k : Int, 0 ≤ i → i < 2 * 2 → k ∈ adj g i →
        cells.count (max i k, min i k) = 1 ∧ cells.count (min i k, max i k) = 0 :=
  ⟨by decide, by decide, by decide,
    export_cells_each_edge_once 2 2 (by decide) (by decide) (by decide)⟩

/-- C18 fails as stated: for `ni = nj = 32768`, which `main` accepts, `generate_graph`
throws before `main` reaches the export loop, so no cell is printed. -/
theorem export_cells_each_edge_once_counterexample :
    (1 : Int) ≤ 32768 ∧ (32768 : Int) * 32768 ≤ 2 ^ 31 - 1 ∧
    generate_graph 32768 32768 { neighbours := [], offset := [] } = none ∧
    ¬ ∃ g cells, generate_graph 32768 32768 { neighbours := [], offset := [] } = some g ∧
      export_cells g = some cells ∧
      cells.length = cells_announced g ∧
      cells_announced g = g.neighbours.length / 2 ∧
      (∀ i k : Int, (i, k) ∈ cells ↔ 0 ≤ i ∧ i < 32768 * 32768 ∧ k ∈ adj g i ∧ i > k) ∧
      cells.Nodup ∧
      ∀ i k : Int, 0 ≤ i → i < 32768 * 32768 → k ∈ adj g i →
        cells.count (max i k, min i k) = 1 ∧ cells.count (min i k, max i k) = 0 := by
  refine ⟨by decide, by decide, generate_graph_throws, ?_⟩
  rintro ⟨g, cells, h, _⟩
  rw [generate_graph_throws] at h
  exact Option.noConfusion h

/-- C19, as amended (exact edge-endpoint count): for `ni, nj ≥ 1` with
`ni * nj * 4 ≤ 2^31 - 1` the neighbour sequence of the graph returned by
`generate_graph(ni, nj)` has exactly `4 * ni * nj - 2 * (ni + nj)` entries, which is the
value that the capacity expression takes in `int` arithmetic and that is reserved up
front. -/
theorem generate_graph_neighbour_count (ni nj : Int) (hni : 1 ≤ ni) (hnj : 1 ≤ nj)
    (hr : ni * nj * 4 ≤ 2 ^ 31 - 1) :
    ∃ g, generate_graph ni nj { neighbours := [], offset := [] } = some g ∧
      (g.neighbours.length : Int) = 4 * ni * nj - 2 * (ni + nj) ∧
      (g.neighbours.length : Int) = reserve_capacity32 ni nj := by
  have h := lattice_neighbours_length ni nj hni hnj
  refine ⟨lattice ni nj, generate_graph_eq_lattice ni nj hni hnj hr, ?_, ?_⟩
  · rw [h]; ring
  · rw [h, reserve_capacity32_eq ni nj hni hnj hr]

theorem generate_graph_neighbour_count_witness :
    (1 : Int) ≤ 3 ∧ (1 : Int) ≤ 5 ∧ (3 : Int) * 5 * 4 ≤ 2 ^ 31 - 1 ∧
    ∃ g, generate_graph 3 5 { neighbours := [], offset := [] } = some g ∧
      (g.neighbours.length : Int) = 4 * 3 * 5 - 2 * (3 + 5) ∧
      (g.neighbours.length : Int) = reserve_capacity32 3 5 :=
  ⟨by decide, by decide, by decide,
    generate_graph_neighbour_count 3 5 (by decide) (by decide) (by decide)⟩

/-- C19 fails as stated: for `ni = nj = 32768`, which `main` accepts, the capacity
expression takes the value -131072 in `int` arithmetic, not
`4 * ni * nj - 2 * (ni + nj) = 4294836224`, and `generate_graph` throws in the
reservation, so no neighbour sequence is built. -/
theorem generate_graph_neighbour_count_counterexample :
    (1 : Int) ≤ 32768 ∧ (32768 : Int) * 32768 ≤ 2 ^ 31 - 1 ∧
    reserve_capacity32 32768 32768 = -131072 ∧
    (4 : Int) * 32768 * 32768 - 2 * (32768 + 32768) = 4294836224 ∧
    generate_graph 32768 32768 { neighbours := [], offset := [] } = none ∧
    ¬ ∃ g, generate_graph 32768 32768 { neighbours := [], offset := [] } = some g ∧
      (g.neighbours.length : Int) = 4 * 32768 * 32768 - 2 * (32768 + 32768) ∧
      (g.neighbours.length : Int) = reserve_capacity32 32768 32768 := by
  refine ⟨by decide, by decide, by decide, by decide, generate_graph_throws, ?_⟩
  rintro ⟨g, h, _⟩
  rw [generate_graph_throws] at h
  exact Option.noConfusion h

end SgsTask
